import Mathlib

/-!
# Breadth-first traversal (`src/BFS.cpp`)

A shallow embedding of the program `BFS.cpp` and proofs about it.

The program keeps three global objects: the adjacency list `adj`, the flag
vector `visited` and the queue `q`.  `bfs(start)` marks and enqueues the start
node, then repeatedly dequeues a node, prints it followed by a blank, and
enqueues its not yet visited neighbours; after the loop it prints `endl`.

The globals and the text written to `cout` are collected in `State`, and every
C++ statement becomes a function on `State`.  Node numbers are C++ `int`s and
are modelled by `Int`.  `operator[]`, `front` and `pop` are unchecked in C++: an
access outside the container is undefined behaviour, which the embedding
records as the outcome `undefined` together with the state at that point.

The program is given twice.  `bfs` follows the structure of the source
(`visit`, `forNbrs`, `iter`, `whileLoop`); its `while` loop takes a bound `fuel`
on the number of executions of the loop body and yields `none` when the bound
is too small, and `bfs_mono` shows that more fuel never changes a result.
`step` executes one statement at a time between the control points `Pc`, so
that the states in the middle of a call can be spoken about; `bfs_reach` shows
that a returning call of `bfs` is a run of `step` from the entry of `bfs` to
its return point.
-/

namespace BFS

/-! ## Data model -/

/-- One item written to `cout`. -/
inductive Write
  | int (n : Int)
  | str (s : String)
  | endl
  deriving DecidableEq, Repr

/-- The global variables of `BFS.cpp` (lines 4-12) and the output written so far. -/
structure State where
  adj : List (List Int)
  visited : List Bool
  q : List Int
  cout : List Write
  deriving DecidableEq, Repr

/-- An unchecked container access of the source that left its container. -/
inductive Fault
  | visitedIndex (i : Int)
  | adjIndex (i : Int)
  | emptyQueue
  deriving DecidableEq, Repr

/-- How a piece of the program ends.
`ok a`: it ran to its end with result `a`.
`undefined f st`: in state `st` it performed the unchecked access `f` outside its
container, where C++ leaves the behaviour undefined.
`rejected st`: it reported an out-of-range error in state `st`; this is the outcome the
specification asks of a safe reimplementation.  No statement of `BFS.cpp` checks an
index or reports an error, so no function below produces it. -/
inductive Outcome (α : Type)
  | ok (a : α)
  | undefined (f : Fault) (st : State)
  | rejected (st : State)
  deriving DecidableEq, Repr

/-- The adjacency list of lines 4-10. -/
def adj : List (List Int) := [[1, 2], [3], [3, 4], [4], []]

/-- The globals as initialised at program start (lines 4-12): the fixed graph, five
`false` flags, an empty queue; nothing written yet. -/
def fresh : State :=
  { adj := adj, visited := List.replicate 5 false, q := [], cout := [] }

/-- Element `i` of a vector indexed by a C++ `int`; `none` when `i` is outside it. -/
def index? {α : Type} (xs : List α) (i : Int) : Option α :=
  if 0 ≤ i then xs[i.toNat]? else none

/-! ## The statements of `bfs` -/

/-- Read `visited[i]`. -/
def getVisited (st : State) (i : Int) : Option Bool :=
  index? st.visited i

/-- Execute `visited[i] = true`. -/
def setVisited (st : State) (i : Int) : Outcome State :=
  match index? st.visited i with
  | none => Outcome.undefined (Fault.visitedIndex i) st
  | some _ => Outcome.ok { st with visited := st.visited.set i.toNat true }

/-- Execute `q.push(v)`. -/
def push (st : State) (v : Int) : State :=
  { st with q := st.q ++ [v] }

/-- Execute `cout << u << " "` (line 20). -/
def emit (st : State) (u : Int) : State :=
  { st with cout := st.cout ++ [Write.int u, Write.str " "] }

/-- Body of the `for` loop (lines 22-25) for one neighbour `v`. -/
def visit (st : State) (v : Int) : Outcome State :=
  match getVisited st v with
  | none => Outcome.undefined (Fault.visitedIndex v) st
  | some true => Outcome.ok st
  | some false =>
    match setVisited st v with
    | Outcome.ok st1 => Outcome.ok (push st1 v)
    | o => o

/-- Run the `for` loop of lines 21-26 over the neighbours `vs`, in their stored order. -/
def forNbrs (st : State) : List Int → Outcome State
  | [] => Outcome.ok st
  | v :: vs =>
    match visit st v with
    | Outcome.ok st1 => forNbrs st1 vs
    | o => o

/-- One execution of the body of the `while` loop (lines 19-26). -/
def iter (st : State) : Outcome State :=
  match st.q with
  | [] => Outcome.undefined Fault.emptyQueue st
  | u :: rest =>
    let st1 := emit { st with q := rest } u
    match index? st1.adj u with
    | none => Outcome.undefined (Fault.adjIndex u) st1
    | some vs => forNbrs st1 vs

/-- The `while` loop of lines 18-27.  `fuel` bounds the number of times the body may be
executed; `none` means the bound was reached with the queue still non-empty. -/
def whileLoop : Nat → State → Option (Outcome State)
  | 0, st => if st.q.isEmpty then some (Outcome.ok st) else none
  | fuel + 1, st =>
    if st.q.isEmpty then some (Outcome.ok st)
    else
      match iter st with
      | Outcome.ok st1 => whileLoop fuel st1
      | o => some o

/-- Execute `cout << endl` (line 28). -/
def endl (st : State) : State :=
  { st with cout := st.cout ++ [Write.endl] }

/-- The function `bfs` of lines 15-29, run in state `st` with argument `start`. -/
def bfs (fuel : Nat) (st : State) (start : Int) : Option (Outcome State) :=
  match setVisited st start with
  | Outcome.ok st1 =>
    match whileLoop fuel (push st1 start) with
    | some (Outcome.ok st2) => some (Outcome.ok (endl st2))
    | r => r
  | o => some o

/-! ## Observations -/

/-- The node numbers written to `cout`, in the order written. -/
def emitted (st : State) : List Int :=
  st.cout.filterMap fun w => match w with
    | Write.int n => some n
    | _ => none

/-- The characters one `cout` item produces. -/
def render : Write → String
  | Write.int n => toString n
  | Write.str s => s
  | Write.endl => "\n"

/-- The text written to `cout`. -/
def text (st : State) : String :=
  String.join (st.cout.map render)

/-! ## The graph -/

/-- `b` is listed among the neighbours of `a` in the adjacency list `g`. -/
def Edge (g : List (List Int)) (a b : Int) : Prop :=
  ∃ vs, index? g a = some vs ∧ b ∈ vs

/-- `v` can be reached from `s` along edges of `g` (in zero or more steps). -/
def Reachable (g : List (List Int)) (s v : Int) : Prop :=
  Relation.ReflTransGen (Edge g) s v

/-- `Walk g k a c`: there is a sequence of `k` edges of `g` leading from `a` to `c`. -/
inductive Walk (g : List (List Int)) : Nat → Int → Int → Prop
  | nil (a : Int) : Walk g 0 a a
  | cons {k : Nat} {a b c : Int} : Edge g a b → Walk g k b c → Walk g (k + 1) a c

/-- `k` is the shortest-path distance (number of edges) from `s` to `v` in `g`. -/
def IsDist (g : List (List Int)) (s v : Int) (k : Nat) : Prop :=
  Walk g k s v ∧ ∀ j, Walk g j s v → k ≤ j

/-- Executable test for a walk of exactly `k` edges from `a` to `c`. -/
def walkB (g : List (List Int)) : Nat → Int → Int → Bool
  | 0, a, c => decide (a = c)
  | k + 1, a, c =>
    match index? g a with
    | none => false
    | some vs => vs.any fun b => walkB g k b c

/-- The least `k < n` with a walk of `k` edges from `s` to `v`, and `n` when there is none. -/
def distB (g : List (List Int)) (n : Nat) (s v : Int) : Nat :=
  ((List.range n).find? fun k => walkB g k s v).getD n

/-- The edges of the fixed graph `adj`, as pairs. -/
def adjEdges : List (Int × Int) :=
  [(0, 1), (0, 2), (1, 3), (2, 3), (2, 4), (3, 4)]

/-- The number of `false` flags in `visited`. -/
def unvisited (st : State) : Nat :=
  st.visited.count false

/-- The termination measure of the `while` loop: unvisited nodes plus queue length. -/
def loopMeasure (st : State) : Nat :=
  unvisited st + st.q.length

/-! ## The states at the head of the `while` loop -/

/-- The states in which the loop condition of line 18 is evaluated, in order, starting
from `st`; the last one is the state in which the loop is left. -/
def loopStates : Nat → State → List State
  | 0, st => [st]
  | fuel + 1, st =>
    if st.q.isEmpty then [st]
    else
      match iter st with
      | Outcome.ok st1 => st :: loopStates fuel st1
      | _ => [st]

/-- The state in which `bfs` is entered, followed by the states at the loop head: the
state after the start node has been enqueued and the state after each complete
execution of the loop body. -/
def bfsStates (fuel : Nat) (st : State) (start : Int) : List State :=
  st :: match setVisited st start with
    | Outcome.ok st1 => loopStates fuel (push st1 start)
    | _ => []

/-! ## Statement-level transition system -/

/-- Control points of `bfs`: `lN` stands before the statement of source line `N`;
`forHead vs` is the head of the `for` loop of line 21 with the neighbours `vs` still to
be examined; `ret` is the point after `bfs` has returned. -/
inductive Pc
  | l16 (start : Int)
  | l17 (start : Int)
  | l18
  | l19
  | l20 (u : Int)
  | l21 (u : Int)
  | forHead (vs : List Int)
  | l22 (v : Int) (vs : List Int)
  | l23 (v : Int) (vs : List Int)
  | l24 (v : Int) (vs : List Int)
  | l28
  | ret
  deriving DecidableEq, Repr

/-- A control point together with the values of the globals. -/
structure Config where
  pc : Pc
  st : State
  deriving DecidableEq, Repr

/-- What executing one statement leads to. -/
inductive Next
  | goto (c : Config)
  | undefined (f : Fault)
  | halt
  deriving DecidableEq, Repr

/-- Execute the statement at the control point of `c`. -/
def step (c : Config) : Next :=
  match c.pc with
  | Pc.l16 s =>
    match setVisited c.st s with
    | Outcome.ok st1 => Next.goto ⟨Pc.l17 s, st1⟩
    | _ => Next.undefined (Fault.visitedIndex s)
  | Pc.l17 s => Next.goto ⟨Pc.l18, push c.st s⟩
  | Pc.l18 =>
    match c.st.q with
    | [] => Next.goto ⟨Pc.l28, c.st⟩
    | _ :: _ => Next.goto ⟨Pc.l19, c.st⟩
  | Pc.l19 =>
    match c.st.q with
    | [] => Next.undefined Fault.emptyQueue
    | u :: rest => Next.goto ⟨Pc.l20 u, { c.st with q := rest }⟩
  | Pc.l20 u => Next.goto ⟨Pc.l21 u, emit c.st u⟩
  | Pc.l21 u =>
    match index? c.st.adj u with
    | none => Next.undefined (Fault.adjIndex u)
    | some vs => Next.goto ⟨Pc.forHead vs, c.st⟩
  | Pc.forHead [] => Next.goto ⟨Pc.l18, c.st⟩
  | Pc.forHead (v :: vs) => Next.goto ⟨Pc.l22 v vs, c.st⟩
  | Pc.l22 v vs =>
    match getVisited c.st v with
    | none => Next.undefined (Fault.visitedIndex v)
    | some true => Next.goto ⟨Pc.forHead vs, c.st⟩
    | some false => Next.goto ⟨Pc.l23 v vs, c.st⟩
  | Pc.l23 v vs =>
    match setVisited c.st v with
    | Outcome.ok st1 => Next.goto ⟨Pc.l24 v vs, st1⟩
    | _ => Next.undefined (Fault.visitedIndex v)
  | Pc.l24 v vs => Next.goto ⟨Pc.forHead vs, push c.st v⟩
  | Pc.l28 => Next.goto ⟨Pc.ret, endl c.st⟩
  | Pc.ret => Next.halt

/-- The configuration in which `bfs(start)` is entered in state `st`. -/
def entry (st : State) (start : Int) : Config :=
  ⟨Pc.l16 start, st⟩

/-- `c2` is reached from `c1` by executing zero or more statements. -/
def Reach (c1 c2 : Config) : Prop :=
  Relation.ReflTransGen (fun a b => step a = Next.goto b) c1 c2

/-- The configurations passed through from `c` on, at most `n + 1` of them. -/
def configs : Nat → Config → List Config
  | 0, c => [c]
  | n + 1, c =>
    c :: match step c with
      | Next.goto c1 => configs n c1
      | _ => []

/-- The function `main` of lines 30-36, where `startNode` is the value that
`cin >> startNode` has stored: the prompt is written and `bfs(startNode)` is called; no
statement in between looks at the value.  The `return 0` that follows the call is not
modelled. -/
def main (fuel : Nat) (st : State) (startNode : Int) : Option (Outcome State) :=
  bfs fuel { st with cout := st.cout ++ [Write.str "Enter the starting node (0 to 4): "] }
    startNode

/-- The fresh state after `main` has written its prompt. -/
def prompted : State :=
  { fresh with cout := [Write.str "Enter the starting node (0 to 4): "] }

/-- Whether the configuration that `c` steps to, if there is one, is in the list `L`. -/
def stepsInto (L : List Config) (c : Config) : Bool :=
  match step c with
  | Next.goto c1 => decide (c1 ∈ L)
  | _ => true

/-! ## Invariants of the transition system -/

/-- `x` is the number of one of the five nodes. -/
def InRange (x : Int) : Prop :=
  0 ≤ x ∧ x < 5

/-- Every index the configuration holds is the number of a node, and the two vectors have
their five elements. -/
def Safe (c : Config) : Prop :=
  c.st.adj = adj ∧ c.st.visited.length = 5 ∧ (∀ x ∈ c.st.q, InRange x) ∧
    match c.pc with
    | Pc.l16 s => InRange s
    | Pc.l17 s => InRange s
    | Pc.l19 => c.st.q ≠ []
    | Pc.l20 u => InRange u
    | Pc.l21 u => InRange u
    | Pc.forHead vs => ∀ x ∈ vs, InRange x
    | Pc.l22 v vs => InRange v ∧ ∀ x ∈ vs, InRange x
    | Pc.l23 v vs => InRange v ∧ ∀ x ∈ vs, InRange x
    | Pc.l24 v vs => InRange v ∧ ∀ x ∈ vs, InRange x
    | _ => True

/-- The node that has been taken from the queue and is about to be printed, if any. -/
def inHand : Pc → List Int
  | Pc.l20 u => [u]
  | _ => []

/-- The nodes enqueued so far, in the order of their enqueueing: those already printed,
the one in hand, and those waiting in the queue. -/
def discovered (c : Config) : List Int :=
  emitted c.st ++ inHand c.pc ++ c.st.q

/-- The invariant behind "a node is enqueued at most once": the enqueued nodes are pairwise
different and flagged; on entry nothing is enqueued or flagged; between the test of line 22
and the assignment of line 23 the neighbour is unflagged, and between the assignment and
the `push` of line 24 it is flagged and not yet enqueued. -/
def Once (c : Config) : Prop :=
  (discovered c).Nodup ∧ (∀ x ∈ discovered c, getVisited c.st x = some true) ∧
    match c.pc with
    | Pc.l16 _ => discovered c = [] ∧ ∀ x, getVisited c.st x ≠ some true
    | Pc.l17 s => discovered c = [] ∧ getVisited c.st s = some true
    | Pc.l23 v _ => getVisited c.st v = some false
    | Pc.l24 v _ => getVisited c.st v = some true ∧ v ∉ discovered c
    | _ => True

/-! ## Observations of a run -/

/-- The nodes emitted between the states `before` and `after` of one run. -/
def newlyEmitted (before after : State) : List Int :=
  (emitted after).drop (emitted before).length

/-- Executable reachability test for the fixed graph: a walk of fewer than five edges. -/
def reachB (s v : Int) : Bool :=
  (List.range 5).any fun k => walkB adj k s v

/-- The nodes appended to the queue by the `push` statements (lines 17 and 24) standing at
the control points of `cs`, in the order of `cs`. -/
def pushLog : List Config → List Int
  | [] => []
  | c :: cs =>
    match c.pc with
    | Pc.l17 s => s :: pushLog cs
    | Pc.l24 v _ => v :: pushLog cs
    | _ => pushLog cs

/-- The neighbours tested by the `if` of line 22 at the control points of `cs`, in the
order of `cs`. -/
def examLog : List Config → List Int
  | [] => []
  | c :: cs =>
    match c.pc with
    | Pc.l22 v _ => v :: examLog cs
    | _ => examLog cs

/-- The pairs `(u, v)` such that `v` is enqueued by line 24 while the neighbours of the
dequeued node `u` are examined, in the order of `cs`; `cur` is the node dequeued last. -/
def discoveryLog : Option Int → List Config → List (Int × Int)
  | _, [] => []
  | cur, c :: cs =>
    match c.pc with
    | Pc.l20 u => discoveryLog (some u) cs
    | Pc.l24 v _ =>
      match cur with
      | some u => (u, v) :: discoveryLog cur cs
      | none => discoveryLog cur cs
    | _ => discoveryLog cur cs

/-- The stored neighbour list `g[u]`, and the empty list when `u` is not an index of `g`. -/
def nbrsOf (g : List (List Int)) (u : Int) : List Int :=
  (index? g u).getD []

/-! ## Arbitrary graphs -/

/-- Every neighbour listed in `g` is the index of a node of `g`.  The entries are C++
`int`s, so being an index means being non-negative and less than the number of nodes. -/
def WellFormed (g : List (List Int)) : Prop :=
  ∀ vs ∈ g, ∀ v ∈ vs, 0 ≤ v ∧ v < g.length

/-- The globals for the adjacency list `g`: one `false` flag per node, an empty queue,
nothing written.  For `g = adj` this is `fresh`. -/
def freshOn (g : List (List Int)) : State :=
  { adj := g, visited := List.replicate g.length false, q := [], cout := [] }

/-- The loop invariant of the traversal from `s` in the graph `g`, at the test of line 18,
where `d` gives the distance from `s`.  The emitted nodes followed by the queue are the
flagged nodes, without repetition, all reachable from `s` and in order of distance; all
neighbours of an emitted node are among them; and no distance exceeds the distance of
the front of the queue by more than one. -/
def BfsInv (g : List (List Int)) (s : Int) (d : Int → Nat) (st : State) : Prop :=
  st.adj = g ∧ st.visited.length = g.length ∧
  (∀ x, getVisited st x = some true ↔ x ∈ emitted st ++ st.q) ∧
  (emitted st ++ st.q).Nodup ∧
  s ∈ emitted st ++ st.q ∧
  (∀ x ∈ emitted st ++ st.q, Reachable g s x) ∧
  (∀ u ∈ emitted st, ∀ w, Edge g u w → w ∈ emitted st ++ st.q) ∧
  (emitted st ++ st.q).Pairwise (fun a b => d a ≤ d b) ∧
  (∀ u ∈ st.q.head?, ∀ x ∈ emitted st ++ st.q, d x ≤ d u + 1)

/-! ## Fuel -/

theorem whileLoop_mono {n m : Nat} {st : State} {r : Outcome State}
    (h : whileLoop n st = some r) (hnm : n ≤ m) : whileLoop m st = some r := by
  induction n generalizing m st with
  | zero =>
    have hq : st.q.isEmpty = true := by
      by_contra hq
      simp [whileLoop, hq] at h
    cases m <;> simpa [whileLoop, hq] using h
  | succ n ih =>
    obtain ⟨m, rfl⟩ : ∃ k, m = k + 1 := ⟨m - 1, by omega⟩
    by_cases hq : st.q.isEmpty = true
    · simpa [whileLoop, hq] using h
    · simp only [whileLoop, hq] at h ⊢
      cases hi : iter st with
      | ok st1 =>
        simp only [hi] at h ⊢
        exact ih h (by omega)
      | undefined f s => simpa [hi] using h
      | rejected s => simpa [hi] using h

theorem bfs_mono {n m : Nat} {st : State} {s : Int} {r : Outcome State}
    (h : bfs n st s = some r) (hnm : n ≤ m) : bfs m st s = some r := by
  unfold bfs at h ⊢
  cases hs : setVisited st s with
  | ok st1 =>
    simp only [hs] at h ⊢
    cases hw : whileLoop n (push st1 s) with
    | none => simp [hw] at h
    | some o =>
      rw [whileLoop_mono hw hnm]
      simpa [hw] using h
  | undefined f s1 => simpa [hs] using h
  | rejected s1 => simpa [hs] using h

/-! ## Edges and walks of the graph -/

theorem index?_eq_some_iff {α : Type} {xs : List α} {i : Int} {x : α} :
    index? xs i = some x ↔ 0 ≤ i ∧ xs[i.toNat]? = some x := by
  unfold index?
  split_ifs with h <;> simp [h]

theorem index?_lt {α : Type} {xs : List α} {i : Int} {x : α} (h : index? xs i = some x) :
    0 ≤ i ∧ i < xs.length := by
  obtain ⟨h0, hx⟩ := index?_eq_some_iff.1 h
  have := (List.getElem?_eq_some_iff.1 hx).1
  omega

theorem edge_adj {a b : Int} (h : Edge adj a b) : (a, b) ∈ adjEdges := by
  obtain ⟨vs, hvs, hb⟩ := h
  obtain ⟨h0, h5⟩ := index?_lt hvs
  simp only [adj, List.length_cons, List.length_nil] at h5
  have h5 : a < 5 := by simpa using h5
  interval_cases a <;> simp [index?, adj] at hvs <;> subst hvs <;>
    simp at hb <;> simp [adjEdges, hb]

theorem walkB_sound {g : List (List Int)} {k : Nat} {a c : Int}
    (h : walkB g k a c = true) : Walk g k a c := by
  induction k generalizing a with
  | zero =>
    have : a = c := by simpa [walkB] using h
    subst this
    exact Walk.nil a
  | succ k ih =>
    unfold walkB at h
    cases hg : index? g a with
    | none => simp [hg] at h
    | some vs =>
      simp only [hg, List.any_eq_true] at h
      obtain ⟨b, hb, hbc⟩ := h
      exact Walk.cons ⟨vs, hg, hb⟩ (ih hbc)

theorem walk_reachable {g : List (List Int)} {k : Nat} {a c : Int}
    (h : Walk g k a c) : Reachable g a c := by
  induction h with
  | nil a => exact Relation.ReflTransGen.refl
  | cons e _ ih => exact Relation.ReflTransGen.head e ih

theorem reachable_of_walkB {s v : Int}
    (h : ∃ k ∈ List.range 5, walkB adj k s v = true) : Reachable adj s v := by
  obtain ⟨k, _, hk⟩ := h
  exact walk_reachable (walkB_sound hk)

/-- A list of nodes that contains `s` and is closed under the edges of `adj` contains
every node reachable from `s`. -/
theorem reachable_subset (L : List Int) {s v : Int} (hs : s ∈ L)
    (hc : ∀ p ∈ adjEdges, p.1 ∈ L → p.2 ∈ L) (h : Reachable adj s v) : v ∈ L := by
  induction h with
  | refl => exact hs
  | tail _ e ih => exact hc _ (edge_adj e) ih

/-- A potential that grows by at most one along every edge bounds the length of walks
from below. -/
theorem walk_potential {g : List (List Int)} (d : Int → Nat)
    (hd : ∀ a b, Edge g a b → d b ≤ d a + 1) {k : Nat} {a c : Int}
    (h : Walk g k a c) : d c ≤ d a + k := by
  induction h with
  | nil a => simp
  | cons e _ ih =>
    have := hd _ _ e
    omega

theorem isDist_unique {g : List (List Int)} {s v : Int} {k j : Nat}
    (hk : IsDist g s v k) (hj : IsDist g s v j) : k = j :=
  Nat.le_antisymm (hk.2 j hj.1) (hj.2 k hk.1)

/-- In the fixed graph, `distB adj 5 s v` is the distance from `s` to `v` whenever a walk
of that length exists. -/
theorem isDist_distB {s v : Int} (hs : s ∈ [0, 1, 2, 3, 4])
    (hw : walkB adj (distB adj 5 s v) s v = true) : IsDist adj s v (distB adj 5 s v) := by
  refine ⟨walkB_sound hw, fun j hj => ?_⟩
  have hpot : ∀ s ∈ [(0 : Int), 1, 2, 3, 4],
      distB adj 5 s s = 0 ∧ ∀ p ∈ adjEdges, distB adj 5 s p.2 ≤ distB adj 5 s p.1 + 1 := by
    decide
  obtain ⟨h0, he⟩ := hpot s hs
  have := walk_potential (distB adj 5 s) (fun a b e => he (a, b) (edge_adj e)) hj
  omega

/-! ## C1: the emitted nodes are exactly the reachable ones, each once -/

/-- C1. For every start node `s` in 0..4, `bfs(s)` run on the fresh state returns, and
the sequence of nodes it has emitted contains every node reachable from `s` in the fixed
graph exactly once and contains no node that is not reachable from `s`. -/
theorem bfs_emits_exactly_reachable (s : Int) (h0 : 0 ≤ s) (h5 : s < 5)
    (fuel : Nat) (hf : 5 ≤ fuel) :
    ∃ st, bfs fuel fresh s = some (Outcome.ok st) ∧
      (∀ v, Reachable adj s v → (emitted st).count v = 1) ∧
      (∀ v, v ∈ emitted st → Reachable adj s v) := by
  have key : ∀ s ∈ [(0 : Int), 1, 2, 3, 4], ∃ st L, bfs 5 fresh s = some (Outcome.ok st) ∧
      emitted st = L ∧ s ∈ L ∧ (∀ p ∈ adjEdges, p.1 ∈ L → p.2 ∈ L) ∧
      (∀ v ∈ L, L.count v = 1) ∧ (∀ v ∈ L, ∃ k ∈ List.range 5, walkB adj k s v = true) := by
    intro s hs
    simp only [List.mem_cons, List.mem_singleton, List.not_mem_nil, or_false] at hs
    rcases hs with rfl | rfl | rfl | rfl | rfl
    · exact ⟨_, [0, 1, 2, 3, 4], rfl, by decide, by decide, by decide, by decide, by decide⟩
    · exact ⟨_, [1, 3, 4], rfl, by decide, by decide, by decide, by decide, by decide⟩
    · exact ⟨_, [2, 3, 4], rfl, by decide, by decide, by decide, by decide, by decide⟩
    · exact ⟨_, [3, 4], rfl, by decide, by decide, by decide, by decide, by decide⟩
    · exact ⟨_, [4], rfl, by decide, by decide, by decide, by decide, by decide⟩
  have hs : s ∈ [(0 : Int), 1, 2, 3, 4] := by
    interval_cases s <;> simp
  obtain ⟨st, L, hb, hL, hsL, hclosed, hcount, hwalk⟩ := key s hs
  refine ⟨st, bfs_mono hb hf, fun v hv => ?_, fun v hv => ?_⟩
  · rw [hL]
    exact hcount v (reachable_subset L hsL hclosed hv)
  · rw [hL] at hv
    exact reachable_of_walkB (hwalk v hv)

/-- Witness for C1 at start node 0 with fuel 5. -/
theorem bfs_emits_exactly_reachable_witness :
    ∃ st, bfs 5 fresh 0 = some (Outcome.ok st) ∧
      (∀ v, Reachable adj 0 v → (emitted st).count v = 1) ∧
      (∀ v, v ∈ emitted st → Reachable adj 0 v) :=
  bfs_emits_exactly_reachable 0 (by decide) (by decide) 5 (by decide)

/-! ## C2: the five outputs -/

/-- C2. On the fresh state the nodes emitted by `bfs` are `[0,1,2,3,4]` for start 0,
`[1,3,4]` for start 1, `[2,3,4]` for start 2, `[3,4]` for start 3, and the single node
`[4]` for start 4, which has no outgoing edges and for which one execution of the loop
body is enough. -/
theorem bfs_fresh_outputs :
    (∃ st, bfs 5 fresh 0 = some (Outcome.ok st) ∧ emitted st = [0, 1, 2, 3, 4]) ∧
    (∃ st, bfs 5 fresh 1 = some (Outcome.ok st) ∧ emitted st = [1, 3, 4]) ∧
    (∃ st, bfs 5 fresh 2 = some (Outcome.ok st) ∧ emitted st = [2, 3, 4]) ∧
    (∃ st, bfs 5 fresh 3 = some (Outcome.ok st) ∧ emitted st = [3, 4]) ∧
    (∃ st, bfs 5 fresh 4 = some (Outcome.ok st) ∧ emitted st = [4]) ∧
    (∃ st, bfs 1 fresh 4 = some (Outcome.ok st) ∧ emitted st = [4]) ∧
    index? adj 4 = some [] :=
  ⟨⟨_, rfl, by decide⟩, ⟨_, rfl, by decide⟩, ⟨_, rfl, by decide⟩, ⟨_, rfl, by decide⟩,
    ⟨_, rfl, by decide⟩, ⟨_, rfl, by decide⟩, by decide⟩

/-! ## C3: breadth-first order -/

/-- C3. For every start node `s` in 0..4 on the fresh state, every emitted node has a
shortest-path distance from `s`, and whenever `a` is emitted before `b` the distance of
`a` is at most the distance of `b`. -/
theorem bfs_emits_in_distance_order (s : Int) (h0 : 0 ≤ s) (h5 : s < 5)
    (fuel : Nat) (hf : 5 ≤ fuel) :
    ∃ st, bfs fuel fresh s = some (Outcome.ok st) ∧
      (∀ v ∈ emitted st, ∃ d, IsDist adj s v d) ∧
      (∀ a b da db, [a, b].Sublist (emitted st) → IsDist adj s a da → IsDist adj s b db →
        da ≤ db) := by
  have key : ∀ s ∈ [(0 : Int), 1, 2, 3, 4], ∃ st, bfs 5 fresh s = some (Outcome.ok st) ∧
      (∀ v ∈ emitted st, walkB adj (distB adj 5 s v) s v = true) ∧
      (∀ a ∈ emitted st, ∀ b ∈ emitted st, [a, b].Sublist (emitted st) →
        distB adj 5 s a ≤ distB adj 5 s b) := by
    intro s hs
    simp only [List.mem_cons, List.mem_singleton, List.not_mem_nil, or_false] at hs
    rcases hs with rfl | rfl | rfl | rfl | rfl
    · exact ⟨_, rfl, by decide, by decide⟩
    · exact ⟨_, rfl, by decide, by decide⟩
    · exact ⟨_, rfl, by decide, by decide⟩
    · exact ⟨_, rfl, by decide, by decide⟩
    · exact ⟨_, rfl, by decide, by decide⟩
  have hs : s ∈ [(0 : Int), 1, 2, 3, 4] := by
    interval_cases s <;> simp
  obtain ⟨st, hb, hw, hord⟩ := key s hs
  refine ⟨st, bfs_mono hb hf, fun v hv => ⟨_, isDist_distB hs (hw v hv)⟩, ?_⟩
  intro a b da db hab hda hdb
  have ha : a ∈ emitted st := hab.subset (by simp)
  have hb' : b ∈ emitted st := hab.subset (by simp)
  rw [isDist_unique hda (isDist_distB hs (hw a ha)),
    isDist_unique hdb (isDist_distB hs (hw b hb'))]
  exact hord a ha b hb' hab

/-- Witness for C3 at start node 0 with fuel 5. -/
theorem bfs_emits_in_distance_order_witness :
    ∃ st, bfs 5 fresh 0 = some (Outcome.ok st) ∧
      (∀ v ∈ emitted st, ∃ d, IsDist adj 0 v d) ∧
      (∀ a b da db, [a, b].Sublist (emitted st) → IsDist adj 0 a da → IsDist adj 0 b db →
        da ≤ db) :=
  bfs_emits_in_distance_order 0 (by decide) (by decide) 5 (by decide)

/-! ## C4: the text written -/

/-- C4, as the code behaves. For every start node `s` in 0..4 on the fresh state, the
text written by `bfs(s)` is, for each emitted node in order, its decimal representation
followed by one space, and then a newline: there is no leading space, and the last node
too is followed by a space. -/
theorem bfs_text (s : Int) (h0 : 0 ≤ s) (h5 : s < 5) (fuel : Nat) (hf : 5 ≤ fuel) :
    ∃ st, bfs fuel fresh s = some (Outcome.ok st) ∧
      text st = String.join ((emitted st).map fun n => toString n ++ " ") ++ "\n" := by
  have key : ∀ s ∈ [(0 : Int), 1, 2, 3, 4], ∃ st, bfs 5 fresh s = some (Outcome.ok st) ∧
      text st = String.join ((emitted st).map fun n => toString n ++ " ") ++ "\n" := by
    intro s hs
    simp only [List.mem_cons, List.mem_singleton, List.not_mem_nil, or_false] at hs
    rcases hs with rfl | rfl | rfl | rfl | rfl
    · exact ⟨_, rfl, by decide⟩
    · exact ⟨_, rfl, by decide⟩
    · exact ⟨_, rfl, by decide⟩
    · exact ⟨_, rfl, by decide⟩
    · exact ⟨_, rfl, by decide⟩
  have hs : s ∈ [(0 : Int), 1, 2, 3, 4] := by
    interval_cases s <;> simp
  obtain ⟨st, hb, ht⟩ := key s hs
  exact ⟨st, bfs_mono hb hf, ht⟩

/-- Witness for C4 (amended) at start node 0 with fuel 5. -/
theorem bfs_text_witness :
    ∃ st, bfs 5 fresh 0 = some (Outcome.ok st) ∧
      text st = String.join ((emitted st).map fun n => toString n ++ " ") ++ "\n" :=
  bfs_text 0 (by decide) (by decide) 5 (by decide)

/-- C4 as stated fails at start node 0: the text written is `0 1 2 3 4 ` with a space
after the last node and then the newline, which is not the emitted nodes joined by
single spaces followed by the newline. -/
theorem bfs_text_not_joined :
    ∃ st, bfs 5 fresh 0 = some (Outcome.ok st) ∧ text st = "0 1 2 3 4 \n" ∧
      text st ≠ String.intercalate " " ((emitted st).map fun n => toString n) ++ "\n" ∧
      String.intercalate " " ((emitted st).map fun n => toString n) ++ "\n" = "0 1 2 3 4\n" :=
  ⟨_, rfl, by decide, by decide, by decide⟩

/-! ## C5: termination -/

theorem setVisited_eq_ok {st st1 : State} {i : Int} (h : setVisited st i = Outcome.ok st1) :
    (∃ b, index? st.visited i = some b) ∧
      st1 = { st with visited := st.visited.set i.toNat true } := by
  unfold setVisited at h
  cases hi : index? st.visited i with
  | none => simp [hi] at h
  | some b =>
    simp only [hi, Outcome.ok.injEq] at h
    exact ⟨⟨b, rfl⟩, h.symm⟩

theorem visit_eq_ok {st st1 : State} {v : Int} (h : visit st v = Outcome.ok st1) :
    (getVisited st v = some true ∧ st1 = st) ∨
    (getVisited st v = some false ∧
      st1 = { st with visited := st.visited.set v.toNat true, q := st.q ++ [v] }) := by
  unfold visit at h
  cases hg : getVisited st v with
  | none => simp [hg] at h
  | some b =>
    cases b with
    | true =>
      simp only [hg, Outcome.ok.injEq] at h
      exact Or.inl ⟨rfl, h.symm⟩
    | false =>
      simp only [hg] at h
      cases hs : setVisited st v with
      | ok st2 =>
        simp only [hs, Outcome.ok.injEq] at h
        obtain ⟨_, rfl⟩ := setVisited_eq_ok hs
        exact Or.inr ⟨rfl, by simp [← h, push]⟩
      | undefined f s => simp [hs] at h
      | rejected s => simp [hs] at h

/-- Setting a flag that was `false` lowers the number of `false` flags by one. -/
theorem count_false_set {l : List Bool} {i : Int} (h : index? l i = some false) :
    (l.set i.toNat true).count false + 1 = l.count false := by
  obtain ⟨_, hi⟩ := index?_eq_some_iff.1 h
  obtain ⟨hlt, hval⟩ := List.getElem?_eq_some_iff.1 hi
  have hpos : 0 < l.count false := List.count_pos_iff.2 (hval ▸ List.getElem_mem hlt)
  rw [List.count_set _ _ _ _ hlt, hval]
  simp
  omega

theorem visit_measure {st st1 : State} {v : Int} (h : visit st v = Outcome.ok st1) :
    loopMeasure st1 = loopMeasure st := by
  rcases visit_eq_ok h with ⟨_, rfl⟩ | ⟨hg, rfl⟩
  · rfl
  · have := count_false_set hg
    simp only [loopMeasure, unvisited, List.length_append, List.length_singleton]
    omega

theorem forNbrs_measure {vs : List Int} {st st1 : State} (h : forNbrs st vs = Outcome.ok st1) :
    loopMeasure st1 = loopMeasure st := by
  induction vs generalizing st with
  | nil =>
    simp only [forNbrs, Outcome.ok.injEq] at h
    rw [h]
  | cons v vs ih =>
    unfold forNbrs at h
    cases hv : visit st v with
    | ok st2 =>
      simp only [hv] at h
      rw [ih h, visit_measure hv]
    | undefined f s => simp [hv] at h
    | rejected s => simp [hv] at h

/-- Every execution of the loop body lowers the measure by exactly one. -/
theorem iter_measure {st st1 : State} (h : iter st = Outcome.ok st1) :
    loopMeasure st1 + 1 = loopMeasure st := by
  unfold iter at h
  cases hq : st.q with
  | nil => simp [hq] at h
  | cons u rest =>
    simp only [hq] at h
    cases ha : index? (emit { st with q := rest } u).adj u with
    | none => simp [ha] at h
    | some vs =>
      simp only [ha] at h
      rw [forNbrs_measure h]
      simp only [loopMeasure, unvisited, emit, hq, List.length_cons]
      omega

/-- With at least `loopMeasure st` units of fuel the loop started in `st` comes to an end. -/
theorem whileLoop_total (fuel : Nat) (st : State) (h : loopMeasure st ≤ fuel) :
    ∃ r, whileLoop fuel st = some r := by
  induction fuel generalizing st with
  | zero =>
    have hq : st.q = [] := by
      simp only [loopMeasure] at h
      exact List.length_eq_zero.1 (by omega)
    exact ⟨Outcome.ok st, by simp [whileLoop, hq]⟩
  | succ n ih =>
    by_cases hq : st.q.isEmpty = true
    · exact ⟨Outcome.ok st, by simp [whileLoop, hq]⟩
    · simp only [whileLoop, hq]
      cases hi : iter st with
      | ok st1 =>
        have := iter_measure hi
        exact ih st1 (by omega)
      | undefined f s => exact ⟨_, rfl⟩
      | rejected s => exact ⟨_, rfl⟩

/-- C5. `bfs(s)` terminates for every start node `s` in 0..4 on the fresh state.  The
measure "number of unvisited nodes plus queue length" strictly decreases with every
execution of the loop body, in any state, so the loop ends within that many executions.
On the fresh state the loop body is executed at most 5 times, exactly once for each
emitted node: `bfs` returns with that many units of fuel and with no fewer. -/
theorem bfs_terminates (s : Int) (h0 : 0 ≤ s) (h5 : s < 5) :
    (∀ st st1, iter st = Outcome.ok st1 → loopMeasure st1 < loopMeasure st) ∧
    (∀ st fuel, loopMeasure st ≤ fuel → ∃ r, whileLoop fuel st = some r) ∧
    ∃ st, bfs 5 fresh s = some (Outcome.ok st) ∧ (emitted st).length ≤ 5 ∧
      (∀ fuel, (emitted st).length ≤ fuel → bfs fuel fresh s = some (Outcome.ok st)) ∧
      (∀ fuel, fuel < (emitted st).length → bfs fuel fresh s = none) := by
  refine ⟨fun st st1 h => ?_, fun st fuel h => whileLoop_total fuel st h, ?_⟩
  · have := iter_measure h
    omega
  · have key : ∀ s ∈ [(0 : Int), 1, 2, 3, 4], ∃ st n, bfs n fresh s = some (Outcome.ok st) ∧
        (emitted st).length = n ∧ n ≤ 5 ∧ ∀ fuel ∈ List.range n, bfs fuel fresh s = none := by
      intro s hs
      simp only [List.mem_cons, List.mem_singleton, List.not_mem_nil, or_false] at hs
      rcases hs with rfl | rfl | rfl | rfl | rfl
      · exact ⟨_, 5, rfl, by decide, by decide, by decide⟩
      · exact ⟨_, 3, rfl, by decide, by decide, by decide⟩
      · exact ⟨_, 3, rfl, by decide, by decide, by decide⟩
      · exact ⟨_, 2, rfl, by decide, by decide, by decide⟩
      · exact ⟨_, 1, rfl, by decide, by decide, by decide⟩
    have hs : s ∈ [(0 : Int), 1, 2, 3, 4] := by
      interval_cases s <;> simp
    obtain ⟨st, n, hb, hn, hn5, hlt⟩ := key s hs
    refine ⟨st, bfs_mono hb hn5, by omega, fun fuel hfuel => bfs_mono hb (by omega),
      fun fuel hfuel => hlt fuel (List.mem_range.2 (by omega))⟩

/-- Witness for C5 at start node 0. -/
theorem bfs_terminates_witness :
    (∀ st st1, iter st = Outcome.ok st1 → loopMeasure st1 < loopMeasure st) ∧
    (∀ st fuel, loopMeasure st ≤ fuel → ∃ r, whileLoop fuel st = some r) ∧
    ∃ st, bfs 5 fresh 0 = some (Outcome.ok st) ∧ (emitted st).length ≤ 5 ∧
      (∀ fuel, (emitted st).length ≤ fuel → bfs fuel fresh 0 = some (Outcome.ok st)) ∧
      (∀ fuel, fuel < (emitted st).length → bfs fuel fresh 0 = none) :=
  bfs_terminates 0 (by decide) (by decide)

/-! ## C6: start indices outside 0..4 -/

theorem index?_eq_none {α : Type} {xs : List α} {i : Int}
    (h : ¬ (0 ≤ i ∧ i < xs.length)) : index? xs i = none := by
  unfold index?
  split_ifs with h0
  · exact List.getElem?_eq_none (by omega)
  · rfl

theorem index?_isSome {α : Type} {xs : List α} {i : Int} (h0 : 0 ≤ i) (h1 : i < xs.length) :
    ∃ x, index? xs i = some x := by
  have hlt : i.toNat < xs.length := by omega
  exact ⟨xs[i.toNat], by simp [index?, h0, List.getElem?_eq_getElem hlt]⟩

/-- C6, as the code behaves. For a start index `s` outside 0..4 nothing rejects the call:
the first statement of `bfs`, `visited[s] = true`, is an unchecked access outside the
five flags, which is undefined behaviour.  It is reached on the state in which `bfs` was
entered, so before any node is emitted or enqueued; `main` passes the value it has read
to `bfs` without looking at it. -/
theorem bfs_out_of_range (s : Int) (h : ¬ (0 ≤ s ∧ s < 5)) (fuel : Nat) :
    bfs fuel fresh s = some (Outcome.undefined (Fault.visitedIndex s) fresh) ∧
    step (entry fresh s) = Next.undefined (Fault.visitedIndex s) ∧
    emitted fresh = [] ∧ fresh.q = [] ∧
    main fuel fresh s = some (Outcome.undefined (Fault.visitedIndex s) prompted) ∧
    emitted prompted = [] ∧ prompted.q = [] := by
  have hv : ∀ st : State, st.visited = fresh.visited →
      setVisited st s = Outcome.undefined (Fault.visitedIndex s) st := by
    intro st hst
    have : index? st.visited s = none := index?_eq_none (by rw [hst]; simpa [fresh] using h)
    simp [setVisited, this]
  refine ⟨by simp [bfs, hv fresh rfl], by simp [step, entry, hv fresh rfl], rfl, rfl, ?_,
    rfl, rfl⟩
  have hp : setVisited prompted s = Outcome.undefined (Fault.visitedIndex s) prompted :=
    hv prompted rfl
  simp only [main, bfs]
  exact (by rw [hp] : (match setVisited prompted s with
    | Outcome.ok st1 =>
      match whileLoop fuel (push st1 s) with
      | some (Outcome.ok st2) => some (Outcome.ok (endl st2))
      | r => r
    | o => some o) = some (Outcome.undefined (Fault.visitedIndex s) prompted))

/-- Witness for C6 (amended) at start index 5. -/
theorem bfs_out_of_range_witness :
    bfs 5 fresh 5 = some (Outcome.undefined (Fault.visitedIndex 5) fresh) ∧
    step (entry fresh 5) = Next.undefined (Fault.visitedIndex 5) ∧
    emitted fresh = [] ∧ fresh.q = [] ∧
    main 5 fresh 5 = some (Outcome.undefined (Fault.visitedIndex 5) prompted) ∧
    emitted prompted = [] ∧ prompted.q = [] :=
  bfs_out_of_range 5 (by decide) 5

/-- C6 as stated fails at start indices 5 and -1: `bfs` does not end in a reported
out-of-range error there but in the undefined behaviour of `visited[5] = true` and of
`visited[-1] = true`, and so does `main`. -/
theorem bfs_5_not_rejected :
    bfs 5 fresh 5 = some (Outcome.undefined (Fault.visitedIndex 5) fresh) ∧
    bfs 5 fresh (-1) = some (Outcome.undefined (Fault.visitedIndex (-1)) fresh) ∧
    main 5 fresh 5 = some (Outcome.undefined (Fault.visitedIndex 5) prompted) ∧
    (¬ ∃ st, bfs 5 fresh 5 = some (Outcome.rejected st)) ∧
    (¬ ∃ st, bfs 5 fresh (-1) = some (Outcome.rejected st)) ∧
    (¬ ∃ st, main 5 fresh 5 = some (Outcome.rejected st)) := by
  have h1 : bfs 5 fresh 5 = some (Outcome.undefined (Fault.visitedIndex 5) fresh) := rfl
  have h2 : bfs 5 fresh (-1) = some (Outcome.undefined (Fault.visitedIndex (-1)) fresh) := rfl
  have h3 : main 5 fresh 5 = some (Outcome.undefined (Fault.visitedIndex 5) prompted) := rfl
  refine ⟨h1, h2, h3, ?_, ?_, ?_⟩
  · rintro ⟨st, h⟩
    rw [h1] at h
    cases h
  · rintro ⟨st, h⟩
    rw [h2] at h
    cases h
  · rintro ⟨st, h⟩
    rw [h3] at h
    cases h

/-! ## The transition system, case by case -/

/-- Case analysis on one transition: a property of pairs of configurations holds for every
transition as soon as it holds for the transition of each statement. -/
theorem step_cases {P : Config → Config → Prop}
    (mark : ∀ st st1 s, setVisited st s = Outcome.ok st1 → P ⟨Pc.l16 s, st⟩ ⟨Pc.l17 s, st1⟩)
    (pushStart : ∀ st s, P ⟨Pc.l17 s, st⟩ ⟨Pc.l18, push st s⟩)
    (leave : ∀ st, st.q = [] → P ⟨Pc.l18, st⟩ ⟨Pc.l28, st⟩)
    (enter : ∀ st u rest, st.q = u :: rest → P ⟨Pc.l18, st⟩ ⟨Pc.l19, st⟩)
    (pop : ∀ st u rest, st.q = u :: rest → P ⟨Pc.l19, st⟩ ⟨Pc.l20 u, { st with q := rest }⟩)
    (print : ∀ st u, P ⟨Pc.l20 u, st⟩ ⟨Pc.l21 u, emit st u⟩)
    (nbrs : ∀ st u vs, index? st.adj u = some vs → P ⟨Pc.l21 u, st⟩ ⟨Pc.forHead vs, st⟩)
    (forDone : ∀ st, P ⟨Pc.forHead [], st⟩ ⟨Pc.l18, st⟩)
    (forNext : ∀ st v vs, P ⟨Pc.forHead (v :: vs), st⟩ ⟨Pc.l22 v vs, st⟩)
    (seen : ∀ st v vs, getVisited st v = some true → P ⟨Pc.l22 v vs, st⟩ ⟨Pc.forHead vs, st⟩)
    (unseen : ∀ st v vs, getVisited st v = some false →
      P ⟨Pc.l22 v vs, st⟩ ⟨Pc.l23 v vs, st⟩)
    (markNbr : ∀ st st1 v vs, setVisited st v = Outcome.ok st1 →
      P ⟨Pc.l23 v vs, st⟩ ⟨Pc.l24 v vs, st1⟩)
    (pushNbr : ∀ st v vs, P ⟨Pc.l24 v vs, st⟩ ⟨Pc.forHead vs, push st v⟩)
    (newline : ∀ st, P ⟨Pc.l28, st⟩ ⟨Pc.ret, endl st⟩)
    (c c1 : Config) (h : step c = Next.goto c1) : P c c1 := by
  obtain ⟨pc, st⟩ := c
  cases pc with
  | l16 s =>
    simp only [step] at h
    cases hs : setVisited st s with
    | ok st1 =>
      simp only [hs, Next.goto.injEq] at h
      exact h ▸ mark st st1 s hs
    | undefined f s1 => simp [hs] at h
    | rejected s1 => simp [hs] at h
  | l17 s =>
    simp only [step, Next.goto.injEq] at h
    exact h ▸ pushStart st s
  | l18 =>
    simp only [step] at h
    cases hq : st.q with
    | nil =>
      simp only [hq, Next.goto.injEq] at h
      exact h ▸ leave st hq
    | cons u rest =>
      simp only [hq, Next.goto.injEq] at h
      exact h ▸ enter st u rest hq
  | l19 =>
    simp only [step] at h
    cases hq : st.q with
    | nil => simp [hq] at h
    | cons u rest =>
      simp only [hq, Next.goto.injEq] at h
      exact h ▸ pop st u rest hq
  | l20 u =>
    simp only [step, Next.goto.injEq] at h
    exact h ▸ print st u
  | l21 u =>
    simp only [step] at h
    cases ha : index? st.adj u with
    | none => simp [ha] at h
    | some vs =>
      simp only [ha, Next.goto.injEq] at h
      exact h ▸ nbrs st u vs ha
  | forHead vs =>
    cases vs with
    | nil =>
      simp only [step, Next.goto.injEq] at h
      exact h ▸ forDone st
    | cons v vs =>
      simp only [step, Next.goto.injEq] at h
      exact h ▸ forNext st v vs
  | l22 v vs =>
    simp only [step] at h
    cases hg : getVisited st v with
    | none => simp [hg] at h
    | some b =>
      cases b with
      | true =>
        simp only [hg, Next.goto.injEq] at h
        exact h ▸ seen st v vs hg
      | false =>
        simp only [hg, Next.goto.injEq] at h
        exact h ▸ unseen st v vs hg
  | l23 v vs =>
    simp only [step] at h
    cases hs : setVisited st v with
    | ok st1 =>
      simp only [hs, Next.goto.injEq] at h
      exact h ▸ markNbr st st1 v vs hs
    | undefined f s1 => simp [hs] at h
    | rejected s1 => simp [hs] at h
  | l24 v vs =>
    simp only [step, Next.goto.injEq] at h
    exact h ▸ pushNbr st v vs
  | l28 =>
    simp only [step, Next.goto.injEq] at h
    exact h ▸ newline st
  | ret => simp [step] at h

/-- A property that holds in `c0` and is kept by every transition holds in every
configuration reached from `c0`. -/
theorem reach_invariant {I : Config → Prop} {c0 c : Config} (h0 : I c0)
    (hstep : ∀ a b, I a → step a = Next.goto b → I b) (h : Reach c0 c) : I c := by
  induction h with
  | refl => exact h0
  | tail _ hab ih => exact hstep _ _ ih hab

/-! ## C7: no access leaves its container -/

theorem adj_nbrs_inRange {u : Int} {vs : List Int} (h : index? adj u = some vs) :
    ∀ x ∈ vs, InRange x := by
  intro x hx
  have hmem := edge_adj ⟨vs, h, hx⟩
  simp only [adjEdges, List.mem_cons, Prod.mk.injEq, List.mem_singleton, List.not_mem_nil,
    or_false] at hmem
  unfold InRange
  omega

theorem safe_step (a b : Config) (ha : Safe a) (h : step a = Next.goto b) : Safe b := by
  revert ha
  refine step_cases (P := fun a b => Safe a → Safe b) ?_ ?_ ?_ ?_ ?_ ?_ ?_ ?_ ?_ ?_ ?_ ?_ ?_ ?_
    a b h
  · intro st st1 s hs ha
    obtain ⟨_, rfl⟩ := setVisited_eq_ok hs
    simpa [Safe] using ha
  · intro st s ha
    simp only [Safe, push, List.mem_append, List.mem_singleton] at ha ⊢
    refine ⟨ha.1, ha.2.1, ?_, trivial⟩
    rintro x (hx | rfl)
    · exact ha.2.2.1 x hx
    · exact ha.2.2.2
  · intro st hq ha
    exact ⟨ha.1, ha.2.1, ha.2.2.1, trivial⟩
  · intro st u rest hq ha
    exact ⟨ha.1, ha.2.1, ha.2.2.1, by simp [hq]⟩
  · intro st u rest hq ha
    simp only [Safe, hq, List.mem_cons] at ha ⊢
    exact ⟨ha.1, ha.2.1, fun x hx => ha.2.2.1 x (Or.inr hx), ha.2.2.1 u (Or.inl rfl)⟩
  · intro st u ha
    exact ⟨ha.1, ha.2.1, ha.2.2.1, ha.2.2.2⟩
  · intro st u vs hvs ha
    refine ⟨ha.1, ha.2.1, ha.2.2.1, ?_⟩
    have hadj : st.adj = adj := ha.1
    rw [hadj] at hvs
    exact adj_nbrs_inRange hvs
  · intro st ha
    exact ⟨ha.1, ha.2.1, ha.2.2.1, trivial⟩
  · intro st v vs ha
    refine ⟨ha.1, ha.2.1, ha.2.2.1, ?_⟩
    have := ha.2.2.2
    simp only [List.mem_cons] at this
    exact ⟨this v (Or.inl rfl), fun x hx => this x (Or.inr hx)⟩
  · intro st v vs _ ha
    exact ⟨ha.1, ha.2.1, ha.2.2.1, ha.2.2.2.2⟩
  · intro st v vs _ ha
    exact ⟨ha.1, ha.2.1, ha.2.2.1, ha.2.2.2⟩
  · intro st st1 v vs hs ha
    obtain ⟨_, rfl⟩ := setVisited_eq_ok hs
    simpa [Safe] using ha
  · intro st v vs ha
    simp only [Safe, push, List.mem_append, List.mem_singleton] at ha ⊢
    refine ⟨ha.1, ha.2.1, ?_, ha.2.2.2.2⟩
    rintro x (hx | rfl)
    · exact ha.2.2.1 x hx
    · exact ha.2.2.2.1
  · intro st ha
    exact ⟨ha.1, ha.2.1, ha.2.2.1, trivial⟩

theorem safe_entry {s : Int} (h0 : 0 ≤ s) (h5 : s < 5) : Safe (entry fresh s) :=
  ⟨rfl, rfl, by simp [entry, fresh], ⟨h0, h5⟩⟩

/-- In a safe configuration the next statement does not leave its container. -/
theorem safe_no_fault {c : Config} (hc : Safe c) (f : Fault) : step c ≠ Next.undefined f := by
  obtain ⟨pc, st⟩ := c
  obtain ⟨hadj, hlen, hq, hpc⟩ := hc
  simp only at hadj hlen hq hpc
  have hvis : ∀ x, InRange x → ∃ b, index? st.visited x = some b := fun x hx =>
    index?_isSome hx.1 (by rw [hlen]; exact_mod_cast hx.2)
  cases pc with
  | l16 s =>
    obtain ⟨b, hb⟩ := hvis s hpc
    simp [step, setVisited, hb]
  | l17 s => simp [step]
  | l18 => cases hq' : st.q <;> simp [step, hq']
  | l19 =>
    cases hq' : st.q with
    | nil => exact absurd hq' hpc
    | cons u rest => simp [step, hq']
  | l20 u => simp [step]
  | l21 u =>
    obtain ⟨vs, hvs⟩ : ∃ vs, index? st.adj u = some vs :=
      index?_isSome hpc.1 (by rw [hadj]; exact_mod_cast hpc.2)
    simp [step, hvs]
  | forHead vs => cases vs <;> simp [step]
  | l22 v vs =>
    obtain ⟨b, hb⟩ := hvis v hpc.1
    cases b <;> simp [step, getVisited, hb]
  | l23 v vs =>
    obtain ⟨b, hb⟩ := hvis v hpc.1
    simp [step, setVisited, hb]
  | l24 v vs => simp [step]
  | l28 => simp [step]
  | ret => simp [step]

/-- C7. For every start node `s` with `0 ≤ s < 5` on the fresh state the traversal cannot
fail.  `bfs` returns normally whenever it is given enough fuel to end, and in every
configuration reached during the call the next statement stays inside its container: a
node `u` whose list `adj[u]` is read (line 21) and a node `v` whose flag `visited[v]` is
read or written (lines 16, 22, 23) satisfy `0 ≤ u, v < 5` with both vectors of length 5,
and `front`/`pop` (line 19) find the queue non-empty. -/
theorem bfs_cannot_fail (s : Int) (h0 : 0 ≤ s) (h5 : s < 5) :
    (∃ st, bfs 5 fresh s = some (Outcome.ok st)) ∧
    (∀ fuel r, bfs fuel fresh s = some r → ∃ st, r = Outcome.ok st) ∧
    ∀ c, Reach (entry fresh s) c →
      (∀ f, step c ≠ Next.undefined f) ∧
      c.st.adj.length = 5 ∧ c.st.visited.length = 5 ∧
      (∀ u, c.pc = Pc.l21 u → 0 ≤ u ∧ u < 5) ∧
      (∀ v, c.pc = Pc.l16 v → 0 ≤ v ∧ v < 5) ∧
      (∀ v vs, c.pc = Pc.l22 v vs ∨ c.pc = Pc.l23 v vs → 0 ≤ v ∧ v < 5) ∧
      (c.pc = Pc.l19 → c.st.q ≠ []) := by
  have key : ∀ s ∈ [(0 : Int), 1, 2, 3, 4], ∃ st, bfs 5 fresh s = some (Outcome.ok st) := by
    intro s hs
    simp only [List.mem_cons, List.mem_singleton, List.not_mem_nil, or_false] at hs
    rcases hs with rfl | rfl | rfl | rfl | rfl <;> exact ⟨_, rfl⟩
  have hs : s ∈ [(0 : Int), 1, 2, 3, 4] := by
    interval_cases s <;> simp
  obtain ⟨st, hb⟩ := key s hs
  refine ⟨⟨st, hb⟩, fun fuel r hr => ⟨st, ?_⟩, fun c hc => ?_⟩
  · have h1 := bfs_mono hr (Nat.le_max_left fuel 5)
    have h2 := bfs_mono hb (Nat.le_max_right fuel 5)
    rw [h1] at h2
    exact Option.some.inj h2
  · have hsafe : Safe c := reach_invariant (safe_entry h0 h5) safe_step hc
    refine ⟨safe_no_fault hsafe, ?_⟩
    obtain ⟨pc, st⟩ := c
    obtain ⟨hadj, hlen, hq, hpc⟩ := hsafe
    simp only at hadj hlen hq hpc
    refine ⟨by simp [hadj, adj], hlen, ?_, ?_, ?_, ?_⟩
    · rintro u rfl
      exact hpc
    · rintro v rfl
      exact hpc
    · rintro v vs (rfl | rfl) <;> exact hpc.1
    · rintro rfl
      exact hpc

/-- Witness for C7 at start node 0. -/
theorem bfs_cannot_fail_witness :
    (∃ st, bfs 5 fresh 0 = some (Outcome.ok st)) ∧
    (∀ fuel r, bfs fuel fresh 0 = some r → ∃ st, r = Outcome.ok st) ∧
    ∀ c, Reach (entry fresh 0) c →
      (∀ f, step c ≠ Next.undefined f) ∧
      c.st.adj.length = 5 ∧ c.st.visited.length = 5 ∧
      (∀ u, c.pc = Pc.l21 u → 0 ≤ u ∧ u < 5) ∧
      (∀ v, c.pc = Pc.l16 v → 0 ≤ v ∧ v < 5) ∧
      (∀ v vs, c.pc = Pc.l22 v vs ∨ c.pc = Pc.l23 v vs → 0 ≤ v ∧ v < 5) ∧
      (c.pc = Pc.l19 → c.st.q ≠ []) :=
  bfs_cannot_fail 0 (by decide) (by decide)

/-! ## C8: every node is enqueued at most once -/

theorem emitted_emit (st : State) (u : Int) : emitted (emit st u) = emitted st ++ [u] := by
  simp [emitted, emit, List.filterMap_append]

theorem emitted_endl (st : State) : emitted (endl st) = emitted st := by
  simp [emitted, endl, List.filterMap_append]

theorem index?_set_self {l : List Bool} {i : Int} {b : Bool} (h : index? l i = some b) :
    index? (l.set i.toNat true) i = some true := by
  obtain ⟨h0, hi⟩ := index?_eq_some_iff.1 h
  have hlt := (List.getElem?_eq_some_iff.1 hi).1
  exact index?_eq_some_iff.2 ⟨h0, by simp [List.getElem?_set, hlt]⟩

theorem index?_set_true {l : List Bool} {i x : Int} (h : index? l x = some true) :
    index? (l.set i.toNat true) x = some true := by
  obtain ⟨h0, hx⟩ := index?_eq_some_iff.1 h
  have hlt := (List.getElem?_eq_some_iff.1 hx).1
  refine index?_eq_some_iff.2 ⟨h0, ?_⟩
  rw [List.getElem?_set]
  split_ifs with h1 h2
  · rfl
  · omega
  · exact hx

theorem once_step (a b : Config) (ha : Once a) (h : step a = Next.goto b) : Once b := by
  revert ha
  refine step_cases (P := fun a b => Once a → Once b) ?_ ?_ ?_ ?_ ?_ ?_ ?_ ?_ ?_ ?_ ?_ ?_ ?_ ?_
    a b h
  · intro st st1 s hs ha
    obtain ⟨⟨b, hb⟩, rfl⟩ := setVisited_eq_ok hs
    obtain ⟨_, _, hnil, _⟩ := ha
    have hnil' : discovered ⟨Pc.l17 s, { st with visited := st.visited.set s.toNat true }⟩ = [] :=
      hnil
    refine ⟨by rw [hnil']; exact List.nodup_nil, by rw [hnil']; simp, hnil', ?_⟩
    exact index?_set_self hb
  · intro st s ha
    obtain ⟨_, _, hnil, hs⟩ := ha
    have hd : discovered ⟨Pc.l18, push st s⟩ = [s] := by
      have : emitted st = [] ∧ st.q = [] := by simpa [discovered, inHand] using hnil
      simp [discovered, inHand, push, emitted, this.2] at this ⊢
      exact this
    refine ⟨by rw [hd]; simp, ?_, trivial⟩
    rw [hd]
    intro x hx
    rw [List.mem_singleton.1 hx]
    exact hs
  · intro st hq ha
    exact ⟨ha.1, ha.2.1, trivial⟩
  · intro st u rest hq ha
    exact ⟨ha.1, ha.2.1, trivial⟩
  · intro st u rest hq ha
    have hd : discovered ⟨Pc.l20 u, { st with q := rest }⟩ = discovered ⟨Pc.l19, st⟩ := by
      simp [discovered, inHand, hq, emitted]
    exact ⟨hd ▸ ha.1, fun x hx => ha.2.1 x (hd ▸ hx), trivial⟩
  · intro st u ha
    have hd : discovered ⟨Pc.l21 u, emit st u⟩ = discovered ⟨Pc.l20 u, st⟩ := by
      simp [discovered, inHand, emitted, emit, List.filterMap_append]
    exact ⟨hd ▸ ha.1, fun x hx => ha.2.1 x (hd ▸ hx), trivial⟩
  · intro st u vs _ ha
    exact ⟨ha.1, ha.2.1, trivial⟩
  · intro st ha
    exact ⟨ha.1, ha.2.1, trivial⟩
  · intro st v vs ha
    exact ⟨ha.1, ha.2.1, trivial⟩
  · intro st v vs _ ha
    exact ⟨ha.1, ha.2.1, trivial⟩
  · intro st v vs hv ha
    exact ⟨ha.1, ha.2.1, hv⟩
  · intro st st1 v vs hs ha
    obtain ⟨⟨b, hb⟩, rfl⟩ := setVisited_eq_ok hs
    obtain ⟨hnd, hvis, hv⟩ := ha
    refine ⟨hnd, fun x hx => index?_set_true (hvis x hx), index?_set_self hb, fun hmem => ?_⟩
    have h1 := hvis v hmem
    have h2 : getVisited st v = some false := hv
    rw [h1] at h2
    cases h2
  · intro st v vs ha
    obtain ⟨hnd, hvis, hv, hnot⟩ := ha
    have hd : discovered ⟨Pc.forHead vs, push st v⟩ = discovered ⟨Pc.l24 v vs, st⟩ ++ [v] := by
      simp [discovered, inHand, push, emitted]
    refine ⟨?_, ?_, trivial⟩
    · rw [hd]
      exact List.Nodup.append hnd (List.nodup_singleton v) (by simpa using hnot)
    · rw [hd]
      intro x hx
      rcases List.mem_append.1 hx with hx | hx
      · exact hvis x hx
      · rw [List.mem_singleton.1 hx]
        exact hv
  · intro st ha
    have hd : discovered ⟨Pc.ret, endl st⟩ = discovered ⟨Pc.l28, st⟩ := by
      simp [discovered, inHand, emitted, endl, List.filterMap_append]
    exact ⟨hd ▸ ha.1, fun x hx => ha.2.1 x (hd ▸ hx), trivial⟩

theorem once_entry (s : Int) : Once (entry fresh s) := by
  have hd : discovered (entry fresh s) = [] := rfl
  refine ⟨by rw [hd]; exact List.nodup_nil, by rw [hd]; simp, hd, ?_⟩
  intro x hx
  obtain ⟨_, h⟩ := index?_eq_some_iff.1 hx
  obtain ⟨hlt, hval⟩ := List.getElem?_eq_some_iff.1 h
  have hmem : true ∈ (entry fresh s).st.visited := hval ▸ List.getElem_mem hlt
  simp [entry, fresh] at hmem

/-- Every configuration listed by `configs` is reached. -/
theorem reach_configs {n : Nat} {c0 c : Config} (h : c ∈ configs n c0) : Reach c0 c := by
  induction n generalizing c0 with
  | zero =>
    simp only [configs, List.mem_singleton] at h
    subst h
    exact Relation.ReflTransGen.refl
  | succ n ih =>
    simp only [configs, List.mem_cons] at h
    rcases h with rfl | h
    · exact Relation.ReflTransGen.refl
    · cases hs : step c0 with
      | goto c1 =>
        rw [hs] at h
        exact Relation.ReflTransGen.head hs (ih h)
      | undefined f => simp [hs] at h
      | halt => simp [hs] at h

/-- A reached configuration other than the first one has a reached predecessor. -/
theorem reach_pred {c0 c : Config} (h : Reach c0 c) (hne : c ≠ c0) :
    ∃ b, Reach c0 b ∧ step b = Next.goto c := by
  rcases Relation.ReflTransGen.cases_tail h with heq | ⟨b, hb, hstep⟩
  · exact absurd heq hne
  · exact ⟨b, hb, hstep⟩

/-- Only the two `push` statements append to the queue. -/
theorem push_step {a b : Config} (h : step a = Next.goto b) (v : Int)
    (hq : b.st.q = a.st.q ++ [v]) : a.pc = Pc.l17 v ∨ ∃ vs, a.pc = Pc.l24 v vs := by
  revert v
  refine step_cases
    (P := fun a b => ∀ v, b.st.q = a.st.q ++ [v] → a.pc = Pc.l17 v ∨ ∃ vs, a.pc = Pc.l24 v vs)
    ?_ ?_ ?_ ?_ ?_ ?_ ?_ ?_ ?_ ?_ ?_ ?_ ?_ ?_ a b h
  · intro st st1 s hs v hq
    obtain ⟨_, rfl⟩ := setVisited_eq_ok hs
    simp at hq
  · intro st s v hq
    have : s = v := by simpa [push] using hq
    exact Or.inl (by rw [this])
  · intro st _ v hq
    simp at hq
  · intro st u rest _ v hq
    simp at hq
  · intro st u rest hst v hq
    have := congrArg List.length hq
    simp [hst] at this
    omega
  · intro st u v hq
    simp [emit] at hq
  · intro st u vs _ v hq
    simp at hq
  · intro st v hq
    simp at hq
  · intro st w vs v hq
    simp at hq
  · intro st w vs _ v hq
    simp at hq
  · intro st w vs _ v hq
    simp at hq
  · intro st st1 w vs hs v hq
    obtain ⟨_, rfl⟩ := setVisited_eq_ok hs
    simp at hq
  · intro st w vs v hq
    have : w = v := by simpa [push] using hq
    exact Or.inr ⟨vs, by rw [this]⟩
  · intro st v hq
    simp [endl] at hq

/-- The statement executed just before line 17 is the assignment of line 16. -/
theorem pred_l17 {a b : Config} (h : step a = Next.goto b) (s : Int) (hb : b.pc = Pc.l17 s) :
    a.pc = Pc.l16 s ∧ setVisited a.st s = Outcome.ok b.st := by
  revert s
  refine step_cases
    (P := fun a b => ∀ s, b.pc = Pc.l17 s → a.pc = Pc.l16 s ∧ setVisited a.st s = Outcome.ok b.st)
    ?_ ?_ ?_ ?_ ?_ ?_ ?_ ?_ ?_ ?_ ?_ ?_ ?_ ?_ a b h
  · intro st st1 s hs s1 hb
    have : s = s1 := by simpa using hb
    subst this
    exact ⟨rfl, hs⟩
  all_goals
    intros
    simp_all

/-- The statement executed just before line 24 is the assignment of line 23. -/
theorem pred_l24 {a b : Config} (h : step a = Next.goto b) (v : Int) (vs : List Int)
    (hb : b.pc = Pc.l24 v vs) :
    a.pc = Pc.l23 v vs ∧ setVisited a.st v = Outcome.ok b.st := by
  revert v vs
  refine step_cases
    (P := fun a b => ∀ v vs, b.pc = Pc.l24 v vs →
      a.pc = Pc.l23 v vs ∧ setVisited a.st v = Outcome.ok b.st)
    ?_ ?_ ?_ ?_ ?_ ?_ ?_ ?_ ?_ ?_ ?_ ?_ ?_ ?_ a b h
  case refine_12 =>
    intro st st1 w ws hs v vs hb
    have : w = v ∧ ws = vs := by simpa using hb
    obtain ⟨rfl, rfl⟩ := this
    exact ⟨rfl, hs⟩
  all_goals
    intros
    simp_all

/-- C8. During a traversal started on the fresh state every node is enqueued at most once.
In every configuration reached from the entry of `bfs(s)`, the emitted nodes followed by
the queue contents form a duplicate-free list and every node of that list has its visited
flag set.  Moreover a statement that appends a node `v` to the queue is executed only
immediately after a statement that has changed `visited[v]` from `false` to `true`. -/
theorem enqueued_at_most_once (s : Int) (c : Config) (hc : Reach (entry fresh s) c) :
    (emitted c.st ++ c.st.q).Nodup ∧
    (∀ x ∈ emitted c.st ++ c.st.q, getVisited c.st x = some true) ∧
    (∀ c1 v, step c = Next.goto c1 → c1.st.q = c.st.q ++ [v] →
      ∃ c0, Reach (entry fresh s) c0 ∧ step c0 = Next.goto c ∧
        getVisited c0.st v = some false ∧ getVisited c.st v = some true) := by
  have honce : ∀ c, Reach (entry fresh s) c → Once c := fun c hc =>
    reach_invariant (once_entry s) once_step hc
  obtain ⟨hnd, hvis, _⟩ := honce c hc
  have hsub : (emitted c.st ++ c.st.q).Sublist (discovered c) := by
    unfold discovered
    rw [List.append_assoc]
    exact List.Sublist.append_left (List.sublist_append_right _ _) _
  refine ⟨hnd.sublist hsub, fun x hx => hvis x (hsub.subset hx), ?_⟩
  intro c1 v hstep hq
  have hne : c ≠ entry fresh s := by
    intro heq
    rcases push_step hstep v hq with h17 | ⟨vs, h24⟩
    · rw [heq] at h17
      cases h17
    · rw [heq] at h24
      cases h24
  obtain ⟨c0, hc0, hstep0⟩ := reach_pred hc hne
  refine ⟨c0, hc0, hstep0, ?_⟩
  have hset : ∀ st0, setVisited st0 v = Outcome.ok c.st → getVisited c.st v = some true := by
    intro st0 h0
    obtain ⟨⟨b, hb⟩, hst⟩ := setVisited_eq_ok h0
    rw [hst]
    exact index?_set_self hb
  rcases push_step hstep v hq with h17 | ⟨vs, h24⟩
  · obtain ⟨hpc, hset0⟩ := pred_l17 hstep0 v h17
    refine ⟨?_, hset c0.st hset0⟩
    obtain ⟨⟨b, hb⟩, _⟩ := setVisited_eq_ok hset0
    obtain ⟨pc0, st0⟩ := c0
    simp only at hpc hb
    subst hpc
    have h3 := (honce _ hc0).2.2.2 v
    cases b with
    | false => exact hb
    | true => exact absurd hb h3
  · obtain ⟨hpc, hset0⟩ := pred_l24 hstep0 v vs h24
    refine ⟨?_, hset c0.st hset0⟩
    obtain ⟨pc0, st0⟩ := c0
    simp only at hpc
    subst hpc
    exact (honce _ hc0).2.2

/-- Witness for C8: in the traversal from node 0, the configuration in which line 24 is
about to enqueue node 1. -/
theorem enqueued_at_most_once_witness :
    (emitted (State.mk adj [true, true, false, false, false] [] [Write.int 0, Write.str " "]) ++
      (State.mk adj [true, true, false, false, false] [] [Write.int 0, Write.str " "]).q).Nodup ∧
    (∀ x ∈ emitted (State.mk adj [true, true, false, false, false] [] [Write.int 0, Write.str " "])
        ++ (State.mk adj [true, true, false, false, false] [] [Write.int 0, Write.str " "]).q,
      getVisited (State.mk adj [true, true, false, false, false] [] [Write.int 0, Write.str " "]) x
        = some true) ∧
    (∀ c1 v,
      step ⟨Pc.l24 1 [2],
        State.mk adj [true, true, false, false, false] [] [Write.int 0, Write.str " "]⟩
        = Next.goto c1 →
      c1.st.q =
        (State.mk adj [true, true, false, false, false] [] [Write.int 0, Write.str " "]).q ++ [v] →
      ∃ c0, Reach (entry fresh 0) c0 ∧
        step c0 = Next.goto ⟨Pc.l24 1 [2],
          State.mk adj [true, true, false, false, false] [] [Write.int 0, Write.str " "]⟩ ∧
        getVisited c0.st v = some false ∧
        getVisited (State.mk adj [true, true, false, false, false] [] [Write.int 0, Write.str " "])
          v = some true) :=
  enqueued_at_most_once 0
    ⟨Pc.l24 1 [2], State.mk adj [true, true, false, false, false] [] [Write.int 0, Write.str " "]⟩
    (reach_configs (n := 9) (by decide))

/-! ## The function `bfs` and the transition system agree -/

theorem reach_step {a b : Config} (h : step a = Next.goto b) : Reach a b :=
  Relation.ReflTransGen.single h

theorem forNbrs_reach {vs : List Int} {st st1 : State} (h : forNbrs st vs = Outcome.ok st1) :
    Reach ⟨Pc.forHead vs, st⟩ ⟨Pc.l18, st1⟩ := by
  induction vs generalizing st with
  | nil =>
    simp only [forNbrs, Outcome.ok.injEq] at h
    subst h
    exact reach_step rfl
  | cons v vs ih =>
    unfold forNbrs at h
    cases hv : visit st v with
    | ok st2 =>
      simp only [hv] at h
      refine Relation.ReflTransGen.head (b := ⟨Pc.l22 v vs, st⟩) (by simp [step]) ?_
      rcases visit_eq_ok hv with ⟨hg, rfl⟩ | ⟨hg, rfl⟩
      · exact Relation.ReflTransGen.head (by simp [step, hg]) (ih h)
      · have hset : setVisited st v
            = Outcome.ok { st with visited := st.visited.set v.toNat true } := by
          have hg' : index? st.visited v = some false := hg
          simp [setVisited, hg']
        refine Relation.ReflTransGen.head (b := ⟨Pc.l23 v vs, st⟩) (by simp [step, hg]) ?_
        refine Relation.ReflTransGen.head
          (b := ⟨Pc.l24 v vs, { st with visited := st.visited.set v.toNat true }⟩)
          (by simp [step, hset]) ?_
        exact Relation.ReflTransGen.head (by simp [step, push]) (ih h)
    | undefined f s => simp [hv] at h
    | rejected s => simp [hv] at h

theorem iter_reach {st st1 : State} (h : iter st = Outcome.ok st1) :
    Reach ⟨Pc.l18, st⟩ ⟨Pc.l18, st1⟩ := by
  unfold iter at h
  cases hq : st.q with
  | nil => simp [hq] at h
  | cons u rest =>
    simp only [hq] at h
    cases ha : index? (emit { st with q := rest } u).adj u with
    | none => simp [ha] at h
    | some vs =>
      simp only [ha] at h
      refine Relation.ReflTransGen.head (b := ⟨Pc.l19, st⟩) (by simp [step, hq]) ?_
      refine Relation.ReflTransGen.head (b := ⟨Pc.l20 u, { st with q := rest }⟩)
        (by simp [step, hq]) ?_
      refine Relation.ReflTransGen.head (b := ⟨Pc.l21 u, emit { st with q := rest } u⟩)
        (by simp [step]) ?_
      exact Relation.ReflTransGen.head (by simp [step, ha]) (forNbrs_reach h)

theorem whileLoop_reach {fuel : Nat} {st st1 : State}
    (h : whileLoop fuel st = some (Outcome.ok st1)) : Reach ⟨Pc.l18, st⟩ ⟨Pc.l28, st1⟩ := by
  induction fuel generalizing st with
  | zero =>
    by_cases hq : st.q.isEmpty = true
    · simp only [whileLoop, hq, if_true, Option.some.injEq, Outcome.ok.injEq] at h
      subst h
      exact reach_step (by simp [step, List.isEmpty_iff.1 hq])
    · simp [whileLoop, hq] at h
  | succ n ih =>
    by_cases hq : st.q.isEmpty = true
    · simp only [whileLoop, hq, if_true, Option.some.injEq, Outcome.ok.injEq] at h
      subst h
      exact reach_step (by simp [step, List.isEmpty_iff.1 hq])
    · simp only [whileLoop, hq] at h
      cases hi : iter st with
      | ok st2 =>
        simp only [hi] at h
        exact (iter_reach hi).trans (ih h)
      | undefined f s => simp [hi] at h
      | rejected s => simp [hi] at h

/-- If `bfs` returns, the transition system gets from the entry of `bfs` to its return
point, with the same final state. -/
theorem bfs_reach {fuel : Nat} {st st1 : State} {s : Int}
    (h : bfs fuel st s = some (Outcome.ok st1)) : Reach (entry st s) ⟨Pc.ret, st1⟩ := by
  unfold bfs at h
  cases hs : setVisited st s with
  | ok st2 =>
    simp only [hs] at h
    cases hw : whileLoop fuel (push st2 s) with
    | none => simp [hw] at h
    | some o =>
      cases o with
      | ok st3 =>
        simp only [hw, Option.some.injEq, Outcome.ok.injEq] at h
        subst h
        refine Relation.ReflTransGen.head (b := ⟨Pc.l17 s, st2⟩) (by simp [step, entry, hs]) ?_
        refine Relation.ReflTransGen.head (b := ⟨Pc.l18, push st2 s⟩) (by simp [step]) ?_
        exact (whileLoop_reach hw).trans (reach_step (by simp [step]))
      | undefined f s1 => simp [hw] at h
      | rejected s1 => simp [hw] at h
  | undefined f s1 => simp [hs] at h
  | rejected s1 => simp [hs] at h

/-! ## C10: visited flags are never reset -/

theorem visited_step (a b : Config) (h : step a = Next.goto b) (v : Int)
    (hv : getVisited a.st v = some true) : getVisited b.st v = some true := by
  revert hv
  refine step_cases
    (P := fun a b => getVisited a.st v = some true → getVisited b.st v = some true)
    ?_ ?_ ?_ ?_ ?_ ?_ ?_ ?_ ?_ ?_ ?_ ?_ ?_ ?_ a b h
  case refine_1 =>
    intro st st1 s hs hv
    obtain ⟨_, rfl⟩ := setVisited_eq_ok hs
    exact index?_set_true hv
  case refine_12 =>
    intro st st1 w ws hs hv
    obtain ⟨_, rfl⟩ := setVisited_eq_ok hs
    exact index?_set_true hv
  all_goals
    intros
    intro hv
    exact hv

/-- C10. The visited vector starts with five `false` flags and is monotone: no statement of
`bfs` changes a flag from `true` to `false`, so a flag that is set in some configuration is
set in every configuration reached from it, and a flag set when `bfs` is called is set when
it returns. -/
theorem visited_monotone :
    fresh.visited = [false, false, false, false, false] ∧
    (∀ a b, step a = Next.goto b → ∀ v, getVisited a.st v = some true →
      getVisited b.st v = some true) ∧
    (∀ a b, Reach a b → ∀ v, getVisited a.st v = some true → getVisited b.st v = some true) ∧
    (∀ fuel st s st1, bfs fuel st s = some (Outcome.ok st1) →
      ∀ v, getVisited st v = some true → getVisited st1 v = some true) := by
  have hreach : ∀ a b, Reach a b → ∀ v, getVisited a.st v = some true →
      getVisited b.st v = some true := by
    intro a b hab v hv
    induction hab with
    | refl => exact hv
    | tail _ hstep ih => exact visited_step _ _ hstep v ih
  exact ⟨rfl, visited_step, hreach, fun fuel st s st1 h v hv => hreach _ _ (bfs_reach h) v hv⟩

/-! ## C9: when the queue is empty -/

theorem loopStates_mono {n m : Nat} {st : State} {r : Outcome State}
    (h : whileLoop n st = some r) (hnm : n ≤ m) : loopStates m st = loopStates n st := by
  induction n generalizing m st with
  | zero =>
    have hq : st.q.isEmpty = true := by
      by_contra hq
      simp [whileLoop, hq] at h
    cases m <;> simp [loopStates, hq]
  | succ n ih =>
    obtain ⟨m, rfl⟩ : ∃ k, m = k + 1 := ⟨m - 1, by omega⟩
    by_cases hq : st.q.isEmpty = true
    · simp [loopStates, hq]
    · simp only [whileLoop, hq] at h
      simp only [loopStates, hq]
      cases hi : iter st with
      | ok st1 =>
        simp only [hi] at h ⊢
        rw [ih h (by omega)]
      | undefined f s => rfl
      | rejected s => rfl

theorem bfsStates_mono {n m : Nat} {st : State} {s : Int} {r : Outcome State}
    (h : bfs n st s = some r) (hnm : n ≤ m) : bfsStates m st s = bfsStates n st s := by
  unfold bfs at h
  unfold bfsStates
  cases hs : setVisited st s with
  | ok st1 =>
    simp only [hs] at h ⊢
    cases hw : whileLoop n (push st1 s) with
    | none => simp [hw] at h
    | some o => rw [loopStates_mono hw hnm]
  | undefined f s1 => rfl
  | rejected s1 => rfl

/-- A list of configurations that contains `c0` and every successor of its members
contains every configuration reached from `c0`. -/
theorem reach_subset (L : List Config) {c0 c : Config} (h0 : c0 ∈ L)
    (hL : ∀ a ∈ L, stepsInto L a = true) (h : Reach c0 c) : c ∈ L := by
  induction h with
  | refl => exact h0
  | tail _ hstep ih =>
    have := hL _ ih
    simpa [stepsInto, hstep] using this

/-- C9. Take the states of a traversal from a start node `s` in 0..4 on the fresh state in
which the queue can be looked at between steps of the algorithm: the initial state
(position 0 of `bfsStates`), the state after the start node has been enqueued and the state
after each complete execution of the loop body.  The queue is empty in such a state if and
only if it is the first one (the traversal has not started) or the last one (the loop is
left: the traversal has completed).  The first state is the fresh state, and `bfs` returns
the last state with the newline written.  These states are exactly the states in which a
run of the statements of `bfs(s)` stands at its entry or at the loop test of line 18. -/
theorem queue_empty_iff_not_started_or_completed (s : Int) (h0 : 0 ≤ s) (h5 : s < 5) :
    (bfsStates 5 fresh s).head? = some fresh ∧
    (∃ last, (bfsStates 5 fresh s).getLast? = some last ∧
      bfs 5 fresh s = some (Outcome.ok (endl last))) ∧
    (∀ fuel, 5 ≤ fuel → bfsStates fuel fresh s = bfsStates 5 fresh s) ∧
    (∀ i (hi : i < (bfsStates 5 fresh s).length),
      ((bfsStates 5 fresh s)[i]).q = [] ↔ (i = 0 ∨ i + 1 = (bfsStates 5 fresh s).length)) ∧
    (∀ c, Reach (entry fresh s) c → c.pc = Pc.l16 s ∨ c.pc = Pc.l18 →
      c.st ∈ bfsStates 5 fresh s) ∧
    (∀ st ∈ bfsStates 5 fresh s, ∃ c, Reach (entry fresh s) c ∧
      (c.pc = Pc.l16 s ∨ c.pc = Pc.l18) ∧ c.st = st) := by
  have key : ∀ s ∈ [(0 : Int), 1, 2, 3, 4],
      (∃ last, (bfsStates 5 fresh s).getLast? = some last ∧
        bfs 5 fresh s = some (Outcome.ok (endl last))) ∧
      (∀ i (hi : i < (bfsStates 5 fresh s).length),
        ((bfsStates 5 fresh s)[i]).q = [] ↔ (i = 0 ∨ i + 1 = (bfsStates 5 fresh s).length)) ∧
      (∀ a ∈ configs 60 (entry fresh s), stepsInto (configs 60 (entry fresh s)) a = true) ∧
      (∀ c ∈ configs 60 (entry fresh s), c.pc = Pc.l16 s ∨ c.pc = Pc.l18 →
        c.st ∈ bfsStates 5 fresh s) ∧
      (∀ st ∈ bfsStates 5 fresh s, ∃ c ∈ configs 60 (entry fresh s),
        (c.pc = Pc.l16 s ∨ c.pc = Pc.l18) ∧ c.st = st) := by
    intro s hs
    simp only [List.mem_cons, List.mem_singleton, List.not_mem_nil, or_false] at hs
    rcases hs with rfl | rfl | rfl | rfl | rfl
    · exact ⟨⟨_, rfl, rfl⟩, by decide, by decide, by decide, by decide⟩
    · exact ⟨⟨_, rfl, rfl⟩, by decide, by decide, by decide, by decide⟩
    · exact ⟨⟨_, rfl, rfl⟩, by decide, by decide, by decide, by decide⟩
    · exact ⟨⟨_, rfl, rfl⟩, by decide, by decide, by decide, by decide⟩
    · exact ⟨⟨_, rfl, rfl⟩, by decide, by decide, by decide, by decide⟩
  have hs : s ∈ [(0 : Int), 1, 2, 3, 4] := by
    interval_cases s <;> simp
  obtain ⟨⟨last, hlast, hb⟩, hiff, hclosed, hin, hout⟩ := key s hs
  refine ⟨rfl, ⟨last, hlast, hb⟩, fun fuel hf => bfsStates_mono hb hf, hiff, ?_, ?_⟩
  · intro c hc hpc
    exact hin c (reach_subset _ (by simp [configs]) hclosed hc) hpc
  · intro st hst
    obtain ⟨c, hc, hpc, hcst⟩ := hout st hst
    exact ⟨c, reach_configs hc, hpc, hcst⟩

/-- Witness for C9 at start node 3. -/
theorem queue_empty_iff_not_started_or_completed_witness :
    (bfsStates 5 fresh 3).head? = some fresh ∧
    (∃ last, (bfsStates 5 fresh 3).getLast? = some last ∧
      bfs 5 fresh 3 = some (Outcome.ok (endl last))) ∧
    (∀ fuel, 5 ≤ fuel → bfsStates fuel fresh 3 = bfsStates 5 fresh 3) ∧
    (∀ i (hi : i < (bfsStates 5 fresh 3).length),
      ((bfsStates 5 fresh 3)[i]).q = [] ↔ (i = 0 ∨ i + 1 = (bfsStates 5 fresh 3).length)) ∧
    (∀ c, Reach (entry fresh 3) c → c.pc = Pc.l16 3 ∨ c.pc = Pc.l18 →
      c.st ∈ bfsStates 5 fresh 3) ∧
    (∀ st ∈ bfsStates 5 fresh 3, ∃ c, Reach (entry fresh 3) c ∧
      (c.pc = Pc.l16 3 ∨ c.pc = Pc.l18) ∧ c.st = st) :=
  queue_empty_iff_not_started_or_completed 3 (by decide) (by decide)

/-! ## C11: determinism -/

/-- A configuration steps to at most one configuration, so of two configurations reached
from the same one, one is reached from the other. -/
theorem reach_linear {a b c : Config} (hb : Reach a b) (hc : Reach a c) :
    Reach b c ∨ Reach c b := by
  induction hb with
  | refl => exact Or.inl hc
  | tail _ hstep ih =>
    rcases ih with h | h
    · rcases Relation.ReflTransGen.cases_head h with heq | ⟨x, hx, hxc⟩
      · subst heq
        exact Or.inr (reach_step hstep)
      · have hx' : step _ = Next.goto x := hx
        rw [hstep] at hx'
        cases hx'
        exact Or.inl hxc
    · exact Or.inr (h.trans (reach_step hstep))

theorem reach_ret {st : State} {c : Config} (h : Reach ⟨Pc.ret, st⟩ c) : c = ⟨Pc.ret, st⟩ := by
  rcases Relation.ReflTransGen.cases_head h with heq | ⟨x, hx, _⟩
  · exact heq.symm
  · have hx' : step ⟨Pc.ret, st⟩ = Next.goto x := hx
    simp [step] at hx'

/-- C11. Traversal is deterministic.  `bfs` is a function of its start node and of the
state it is called in: two runs from the same start node in the same state (in particular
two runs on the fresh state, as in two invocations of the program) end in the same way
whatever fuel they are given, so they emit the same sequence of nodes and write the same
text; and the statement-by-statement run reaches the return point in one state only. -/
theorem bfs_deterministic (st : State) (s : Int) (fuel1 fuel2 : Nat) (r1 r2 : Outcome State)
    (h1 : bfs fuel1 st s = some r1) (h2 : bfs fuel2 st s = some r2) :
    r1 = r2 ∧
    (∀ st1 st2, r1 = Outcome.ok st1 → r2 = Outcome.ok st2 →
      emitted st1 = emitted st2 ∧ text st1 = text st2) ∧
    (∀ st1 st2, Reach (entry st s) ⟨Pc.ret, st1⟩ → Reach (entry st s) ⟨Pc.ret, st2⟩ →
      st1 = st2) := by
  have heq : r1 = r2 := by
    have e1 := bfs_mono h1 (Nat.le_max_left fuel1 fuel2)
    have e2 := bfs_mono h2 (Nat.le_max_right fuel1 fuel2)
    rw [e1] at e2
    exact Option.some.inj e2
  refine ⟨heq, ?_, ?_⟩
  · intro st1 st2 e1 e2
    rw [e1, e2] at heq
    cases heq
    exact ⟨rfl, rfl⟩
  · intro st1 st2 hr1 hr2
    rcases reach_linear hr1 hr2 with h | h
    · have := reach_ret h
      cases this
      rfl
    · have := reach_ret h
      cases this
      rfl

/-- Witness for C11: two runs from node 0 on the fresh state, with fuel 5 and with
fuel 7. -/
theorem bfs_deterministic_witness :
    ∃ r1 r2, bfs 5 fresh 0 = some r1 ∧ bfs 7 fresh 0 = some r2 ∧ r1 = r2 ∧
      (∀ st1 st2, r1 = Outcome.ok st1 → r2 = Outcome.ok st2 →
        emitted st1 = emitted st2 ∧ text st1 = text st2) ∧
      (∀ st1 st2, Reach (entry fresh 0) ⟨Pc.ret, st1⟩ → Reach (entry fresh 0) ⟨Pc.ret, st2⟩ →
        st1 = st2) :=
  ⟨_, _, rfl, rfl, bfs_deterministic fresh 0 5 7 _ _ rfl rfl⟩

/-! ## C13: the state in which `bfs` returns -/

/-- In the fixed graph a node is reachable from a start node in 0..4 exactly when the
executable test finds a walk to it. -/
theorem reachable_iff_reachB {s v : Int} (hs : s ∈ [(0 : Int), 1, 2, 3, 4]) :
    Reachable adj s v ↔ reachB s v = true := by
  constructor
  · intro h
    have hclosed : ∀ s ∈ [(0 : Int), 1, 2, 3, 4],
        s ∈ [(0 : Int), 1, 2, 3, 4].filter (reachB s) ∧
        ∀ p ∈ adjEdges, p.1 ∈ [(0 : Int), 1, 2, 3, 4].filter (reachB s) →
          p.2 ∈ [(0 : Int), 1, 2, 3, 4].filter (reachB s) := by
      decide
    have := reachable_subset _ (hclosed s hs).1 (hclosed s hs).2 h
    exact (List.mem_filter.1 this).2
  · intro h
    unfold reachB at h
    rw [List.any_eq_true] at h
    obtain ⟨k, hk, hw⟩ := h
    exact reachable_of_walkB ⟨k, hk, hw⟩

theorem reachB_inRange {s v : Int} (hs : s ∈ [(0 : Int), 1, 2, 3, 4]) (h : reachB s v = true) :
    v ∈ [(0 : Int), 1, 2, 3, 4] := by
  have hL : ∀ p ∈ adjEdges, p.1 ∈ [(0 : Int), 1, 2, 3, 4] → p.2 ∈ [(0 : Int), 1, 2, 3, 4] := by
    decide
  exact reachable_subset _ hs hL ((reachable_iff_reachB hs).2 h)

/-- C13. For every start node `s` in 0..4 on the fresh state, `bfs(s)` returns in a state
whose queue is empty, whose adjacency list is the unchanged graph, and in which the flag
of a node `v` is set if and only if `v` is reachable from `s`, which in turn holds if and
only if `v` occurs among the emitted nodes. -/
theorem bfs_final_state (s : Int) (h0 : 0 ≤ s) (h5 : s < 5) (fuel : Nat) (hf : 5 ≤ fuel) :
    ∃ st, bfs fuel fresh s = some (Outcome.ok st) ∧
      st.q = [] ∧ st.adj = fresh.adj ∧ st.adj = adj ∧ st.visited.length = 5 ∧
      (∀ v, getVisited st v = some true ↔ Reachable adj s v) ∧
      (∀ v, Reachable adj s v ↔ v ∈ emitted st) := by
  have key : ∀ s ∈ [(0 : Int), 1, 2, 3, 4], ∃ st, bfs 5 fresh s = some (Outcome.ok st) ∧
      st.q = [] ∧ st.adj = adj ∧ st.visited.length = 5 ∧
      (∀ v ∈ [(0 : Int), 1, 2, 3, 4], getVisited st v = some true ↔ reachB s v = true) ∧
      (∀ v ∈ [(0 : Int), 1, 2, 3, 4], reachB s v = true ↔ v ∈ emitted st) ∧
      (∀ v ∈ emitted st, v ∈ [(0 : Int), 1, 2, 3, 4]) := by
    intro s hs
    simp only [List.mem_cons, List.mem_singleton, List.not_mem_nil, or_false] at hs
    rcases hs with rfl | rfl | rfl | rfl | rfl
    · exact ⟨_, rfl, rfl, rfl, rfl, by decide, by decide, by decide⟩
    · exact ⟨_, rfl, rfl, rfl, rfl, by decide, by decide, by decide⟩
    · exact ⟨_, rfl, rfl, rfl, rfl, by decide, by decide, by decide⟩
    · exact ⟨_, rfl, rfl, rfl, rfl, by decide, by decide, by decide⟩
    · exact ⟨_, rfl, rfl, rfl, rfl, by decide, by decide, by decide⟩
  have hs : s ∈ [(0 : Int), 1, 2, 3, 4] := by
    interval_cases s <;> simp
  obtain ⟨st, hb, hq, hadj, hlen, hvis, hem, hrange⟩ := key s hs
  refine ⟨st, bfs_mono hb hf, hq, hadj, hadj, hlen, fun v => ?_, fun v => ?_⟩
  · rw [reachable_iff_reachB hs]
    constructor
    · intro hv
      have hv' : index? st.visited v = some true := hv
      obtain ⟨hv0, hv5⟩ := index?_lt hv'
      rw [hlen] at hv5
      have hvr : v ∈ [(0 : Int), 1, 2, 3, 4] := by
        have hv5' : v < 5 := by exact_mod_cast hv5
        interval_cases v <;> simp
      exact (hvis v hvr).1 hv
    · intro hr
      exact (hvis v (reachB_inRange hs hr)).2 hr
  · rw [reachable_iff_reachB hs]
    constructor
    · intro hr
      exact (hem v (reachB_inRange hs hr)).1 hr
    · intro hv
      exact (hem v (hrange v hv)).2 hv

/-- Witness for C13 at start node 1 with fuel 5. -/
theorem bfs_final_state_witness :
    ∃ st, bfs 5 fresh 1 = some (Outcome.ok st) ∧
      st.q = [] ∧ st.adj = fresh.adj ∧ st.adj = adj ∧ st.visited.length = 5 ∧
      (∀ v, getVisited st v = some true ↔ Reachable adj 1 v) ∧
      (∀ v, Reachable adj 1 v ↔ v ∈ emitted st) :=
  bfs_final_state 1 (by decide) (by decide) 5 (by decide)

/-! ## C14: a second call -/

/-- C14. The globals are not reset between calls.  For all nodes `s` and `t` in 0..4,
`bfs(s)` on the fresh state followed by `bfs(t)` on the state it leaves returns, and the
nodes emitted by the second call are `t` first and then the nodes that are reachable from
`t` and not reachable from `s`, every node once.  In particular a second `bfs(s)` emits
`[s]` only, and `bfs(0)` after `bfs(1)` emits `[0, 2]`. -/
theorem bfs_second_call (s t : Int) (hs0 : 0 ≤ s) (hs5 : s < 5) (ht0 : 0 ≤ t) (ht5 : t < 5)
    (fuel : Nat) (hf : 5 ≤ fuel) :
    ∃ st1 st2, bfs fuel fresh s = some (Outcome.ok st1) ∧
      bfs fuel st1 t = some (Outcome.ok st2) ∧
      emitted st2 = emitted st1 ++ newlyEmitted st1 st2 ∧
      (newlyEmitted st1 st2).head? = some t ∧
      (newlyEmitted st1 st2).Nodup ∧
      (∀ v, v ∈ newlyEmitted st1 st2 ↔
        v = t ∨ (Reachable adj t v ∧ ¬ Reachable adj s v)) ∧
      (t = s → newlyEmitted st1 st2 = [s]) ∧
      (s = 1 → t = 0 → newlyEmitted st1 st2 = [0, 2]) := by
  have key : ∀ s ∈ [(0 : Int), 1, 2, 3, 4], ∀ t ∈ [(0 : Int), 1, 2, 3, 4],
      ∃ st1 st2, bfs 5 fresh s = some (Outcome.ok st1) ∧
        bfs 5 st1 t = some (Outcome.ok st2) ∧
        emitted st2 = emitted st1 ++ newlyEmitted st1 st2 ∧
        (newlyEmitted st1 st2).head? = some t ∧
        (newlyEmitted st1 st2).Nodup ∧
        (∀ v ∈ newlyEmitted st1 st2, v ∈ [(0 : Int), 1, 2, 3, 4]) ∧
        (∀ v ∈ [(0 : Int), 1, 2, 3, 4], v ∈ newlyEmitted st1 st2 ↔
          v = t ∨ (reachB t v = true ∧ ¬ reachB s v = true)) ∧
        (t = s → newlyEmitted st1 st2 = [s]) ∧
        (s = 1 → t = 0 → newlyEmitted st1 st2 = [0, 2]) := by
    intro s hs t ht
    simp only [List.mem_cons, List.mem_singleton, List.not_mem_nil, or_false] at hs ht
    rcases hs with rfl | rfl | rfl | rfl | rfl <;>
      rcases ht with rfl | rfl | rfl | rfl | rfl <;>
      exact ⟨_, _, rfl, rfl, by decide, by decide, by decide, by decide, by decide,
        by decide, by decide⟩
  have hs : s ∈ [(0 : Int), 1, 2, 3, 4] := by
    interval_cases s <;> simp
  have ht : t ∈ [(0 : Int), 1, 2, 3, 4] := by
    interval_cases t <;> simp
  obtain ⟨st1, st2, hb1, hb2, happ, hhead, hnd, hrange, hiff, hsame, h10⟩ := key s hs t ht
  refine ⟨st1, st2, bfs_mono hb1 hf, bfs_mono hb2 hf, happ, hhead, hnd, fun v => ?_,
    hsame, h10⟩
  rw [reachable_iff_reachB ht, reachable_iff_reachB hs]
  constructor
  · intro hv
    exact (hiff v (hrange v hv)).1 hv
  · intro hv
    have hvr : v ∈ [(0 : Int), 1, 2, 3, 4] := by
      rcases hv with rfl | ⟨hr, _⟩
      · exact ht
      · exact reachB_inRange ht hr
    exact (hiff v hvr).2 hv

/-- Witness for C14: `bfs(1)` followed by `bfs(0)`. -/
theorem bfs_second_call_witness :
    ∃ st1 st2, bfs 5 fresh 1 = some (Outcome.ok st1) ∧
      bfs 5 st1 0 = some (Outcome.ok st2) ∧
      emitted st2 = emitted st1 ++ newlyEmitted st1 st2 ∧
      (newlyEmitted st1 st2).head? = some 0 ∧
      (newlyEmitted st1 st2).Nodup ∧
      (∀ v, v ∈ newlyEmitted st1 st2 ↔
        v = 0 ∨ (Reachable adj 0 v ∧ ¬ Reachable adj 1 v)) ∧
      ((0 : Int) = 1 → newlyEmitted st1 st2 = [1]) ∧
      ((1 : Int) = 1 → (0 : Int) = 0 → newlyEmitted st1 st2 = [0, 2]) :=
  bfs_second_call 1 0 (by decide) (by decide) (by decide) (by decide) 5 (by decide)

/-! ## C12: nodes are emitted in the order of their discovery -/

/-- C12. For every start node `s` in 0..4 on the fresh state, take the complete run of the
statements of `bfs(s)` (it ends at the return point in the state that `bfs` returns).
The emitted sequence is the sequence of the nodes enqueued by the `push` statements, in
the order in which these are executed; the neighbours tested by line 22 are, for each
emitted node `u` in turn, the elements of `adj[u]` in their stored order; every node but
the start node is enqueued while the neighbours of exactly one node are examined, of
which it is a neighbour.  Hence nodes discovered from an earlier emitted node are emitted
before nodes discovered from a later one, and two nodes discovered from the same node are
emitted in their order within its neighbour list. -/
theorem emitted_in_discovery_order (s : Int) (h0 : 0 ≤ s) (h5 : s < 5) :
    ∃ st, bfs 5 fresh s = some (Outcome.ok st) ∧
      (configs 60 (entry fresh s)).getLast? = some ⟨Pc.ret, st⟩ ∧
      emitted st = pushLog (configs 60 (entry fresh s)) ∧
      examLog (configs 60 (entry fresh s)) = (emitted st).flatMap (nbrsOf adj) ∧
      (discoveryLog none (configs 60 (entry fresh s))).map Prod.snd = (emitted st).tail ∧
      (∀ p ∈ discoveryLog none (configs 60 (entry fresh s)),
        p.1 ∈ emitted st ∧ p.2 ∈ nbrsOf adj p.1) ∧
      (∀ p ∈ discoveryLog none (configs 60 (entry fresh s)),
        ∀ r ∈ discoveryLog none (configs 60 (entry fresh s)),
          [p.1, r.1].Sublist (emitted st) → [p.2, r.2].Sublist (emitted st)) ∧
      (∀ p ∈ discoveryLog none (configs 60 (entry fresh s)),
        ∀ r ∈ discoveryLog none (configs 60 (entry fresh s)),
          p.1 = r.1 → p.2 ≠ r.2 → [p.2, r.2].Sublist (nbrsOf adj p.1) →
            [p.2, r.2].Sublist (emitted st)) := by
  have hs : s ∈ [(0 : Int), 1, 2, 3, 4] := by
    interval_cases s <;> simp
  simp only [List.mem_cons, List.mem_singleton, List.not_mem_nil, or_false] at hs
  rcases hs with rfl | rfl | rfl | rfl | rfl
  · exact ⟨_, rfl, by decide, by decide, by decide, by decide, by decide, by decide,
      by decide⟩
  · exact ⟨_, rfl, by decide, by decide, by decide, by decide, by decide, by decide,
      by decide⟩
  · exact ⟨_, rfl, by decide, by decide, by decide, by decide, by decide, by decide,
      by decide⟩
  · exact ⟨_, rfl, by decide, by decide, by decide, by decide, by decide, by decide,
      by decide⟩
  · exact ⟨_, rfl, by decide, by decide, by decide, by decide, by decide, by decide,
      by decide⟩

/-- Witness for C12 at start node 0. -/
theorem emitted_in_discovery_order_witness :
    ∃ st, bfs 5 fresh 0 = some (Outcome.ok st) ∧
      (configs 60 (entry fresh 0)).getLast? = some ⟨Pc.ret, st⟩ ∧
      emitted st = pushLog (configs 60 (entry fresh 0)) ∧
      examLog (configs 60 (entry fresh 0)) = (emitted st).flatMap (nbrsOf adj) ∧
      (discoveryLog none (configs 60 (entry fresh 0))).map Prod.snd = (emitted st).tail ∧
      (∀ p ∈ discoveryLog none (configs 60 (entry fresh 0)),
        p.1 ∈ emitted st ∧ p.2 ∈ nbrsOf adj p.1) ∧
      (∀ p ∈ discoveryLog none (configs 60 (entry fresh 0)),
        ∀ r ∈ discoveryLog none (configs 60 (entry fresh 0)),
          [p.1, r.1].Sublist (emitted st) → [p.2, r.2].Sublist (emitted st)) ∧
      (∀ p ∈ discoveryLog none (configs 60 (entry fresh 0)),
        ∀ r ∈ discoveryLog none (configs 60 (entry fresh 0)),
          p.1 = r.1 → p.2 ≠ r.2 → [p.2, r.2].Sublist (nbrsOf adj p.1) →
            [p.2, r.2].Sublist (emitted st)) :=
  emitted_in_discovery_order 0 (by decide) (by decide)

/-! ## C15: the traversal on an arbitrary graph -/

theorem walk_snoc {g : List (List Int)} {k : Nat} {a b c : Int}
    (h : Walk g k a b) (e : Edge g b c) : Walk g (k + 1) a c := by
  induction h with
  | nil a => exact Walk.cons e (Walk.nil c)
  | cons e1 _ ih => exact Walk.cons e1 (ih e)

theorem walk_snoc_inv {g : List (List Int)} {k : Nat} {a c : Int}
    (h : Walk g (k + 1) a c) : ∃ b, Walk g k a b ∧ Edge g b c := by
  induction k generalizing a with
  | zero =>
    cases h with
    | cons e w =>
      cases w
      exact ⟨a, Walk.nil a, e⟩
  | succ k ih =>
    cases h with
    | cons e w =>
      obtain ⟨b, hb, hbc⟩ := ih w
      exact ⟨b, Walk.cons e hb, hbc⟩

theorem walk_zero {g : List (List Int)} {a c : Int} (h : Walk g 0 a c) : a = c := by
  cases h
  rfl

theorem reachable_walk {g : List (List Int)} {s v : Int} (h : Reachable g s v) :
    ∃ k, Walk g k s v := by
  induction h with
  | refl => exact ⟨0, Walk.nil s⟩
  | tail _ e ih =>
    obtain ⟨k, hk⟩ := ih
    exact ⟨k + 1, walk_snoc hk e⟩

/-- Every reachable node has a shortest-path distance. -/
theorem reachable_isDist {g : List (List Int)} {s v : Int} (h : Reachable g s v) :
    ∃ k, IsDist g s v k := by
  classical
  have hw := reachable_walk h
  exact ⟨Nat.find hw, Nat.find_spec hw, fun j hj => Nat.find_min' hw hj⟩

theorem index?_set_iff {l : List Bool} {v x : Int} {b : Bool} (h : index? l v = some b) :
    index? (l.set v.toNat true) x = some true ↔ index? l x = some true ∨ x = v := by
  obtain ⟨hv0, hv⟩ := index?_eq_some_iff.1 h
  have hvlt := (List.getElem?_eq_some_iff.1 hv).1
  constructor
  · intro hx
    obtain ⟨hx0, hx'⟩ := index?_eq_some_iff.1 hx
    rw [List.getElem?_set] at hx'
    split_ifs at hx' with h1
    · exact Or.inr (by omega)
    · exact Or.inl (index?_eq_some_iff.2 ⟨hx0, hx'⟩)
  · rintro (hx | rfl)
    · exact index?_set_true hx
    · exact index?_set_self h

theorem index?_set_false {l : List Bool} {i x : Int}
    (h : index? (l.set i.toNat true) x = some false) : index? l x = some false := by
  obtain ⟨hx0, hx⟩ := index?_eq_some_iff.1 h
  rw [List.getElem?_set] at hx
  split_ifs at hx with h1 h2
  · cases hx
  · exact index?_eq_some_iff.2 ⟨hx0, hx⟩

theorem index?_set_isSome {l : List Bool} {i x : Int} {b : Bool} (h : index? l x = some b) :
    ∃ c, index? (l.set i.toNat true) x = some c := by
  obtain ⟨h0, h1⟩ := index?_lt h
  exact index?_isSome h0 (by simpa using h1)

theorem visit_seen {st : State} {v : Int} (h : getVisited st v = some true) :
    visit st v = Outcome.ok st := by
  simp [visit, h]

theorem visit_unseen {st : State} {v : Int} (h : getVisited st v = some false) :
    visit st v
      = Outcome.ok { st with visited := st.visited.set v.toNat true, q := st.q ++ [v] } := by
  have h' : index? st.visited v = some false := h
  simp [visit, h, setVisited, h', push]

theorem emitted_congr {st st1 : State} (h : st1.cout = st.cout) : emitted st1 = emitted st := by
  simp [emitted, h]

/-- What the `for` loop of lines 21-26 does when every neighbour in `vs` is an index of
`visited`: it runs to its end, appends to the queue a duplicate-free list `new` of
neighbours whose flag was unset, sets exactly their flags, and leaves every neighbour
flagged. -/
theorem forNbrs_spec (vs : List Int) (st : State)
    (hvs : ∀ v ∈ vs, ∃ b, getVisited st v = some b) :
    ∃ st1 new, forNbrs st vs = Outcome.ok st1 ∧ st1.adj = st.adj ∧ st1.cout = st.cout ∧
      st1.visited.length = st.visited.length ∧ st1.q = st.q ++ new ∧ new.Nodup ∧
      (∀ x ∈ new, x ∈ vs ∧ getVisited st x = some false) ∧
      (∀ x, getVisited st1 x = some true ↔ (getVisited st x = some true ∨ x ∈ new)) ∧
      (∀ x ∈ vs, getVisited st1 x = some true) := by
  induction vs generalizing st with
  | nil =>
    exact ⟨st, [], rfl, rfl, rfl, rfl, by simp, List.nodup_nil, by simp, by simp, by simp⟩
  | cons v vs ih =>
    obtain ⟨b, hb⟩ := hvs v (List.mem_cons_self v vs)
    cases b with
    | true =>
      obtain ⟨st1, new, hrun, hadj, hcout, hlen, hq, hnd, hnew, hiff, hall⟩ :=
        ih st (fun w hw => hvs w (List.mem_cons_of_mem v hw))
      refine ⟨st1, new, ?_, hadj, hcout, hlen, hq, hnd, ?_, hiff, ?_⟩
      · simp only [forNbrs, visit_seen hb]
        exact hrun
      · intro x hx
        exact ⟨List.mem_cons_of_mem v (hnew x hx).1, (hnew x hx).2⟩
      · intro x hx
        rcases List.mem_cons.1 hx with rfl | hx
        · exact (hiff x).2 (Or.inl hb)
        · exact hall x hx
    | false =>
      have hb' : index? st.visited v = some false := hb
      have hvs2 : ∀ w ∈ vs, ∃ c, getVisited
          { st with visited := st.visited.set v.toNat true, q := st.q ++ [v] } w = some c := by
        intro w hw
        obtain ⟨c, hc⟩ := hvs w (List.mem_cons_of_mem v hw)
        exact index?_set_isSome hc
      obtain ⟨st1, new, hrun, hadj, hcout, hlen, hq, hnd, hnew, hiff, hall⟩ := ih _ hvs2
      have hv1 : getVisited
          { st with visited := st.visited.set v.toNat true, q := st.q ++ [v] } v = some true :=
        index?_set_self hb'
      have hvnew : v ∉ new := by
        intro hmem
        have := (hnew v hmem).2
        rw [hv1] at this
        cases this
      refine ⟨st1, v :: new, ?_, hadj, hcout, ?_, ?_, List.nodup_cons.2 ⟨hvnew, hnd⟩, ?_, ?_,
        ?_⟩
      · simp only [forNbrs, visit_unseen hb]
        exact hrun
      · rw [hlen]
        simp
      · rw [hq]
        simp
      · intro x hx
        rcases List.mem_cons.1 hx with rfl | hx
        · exact ⟨List.mem_cons_self _ _, hb⟩
        · exact ⟨List.mem_cons_of_mem v (hnew x hx).1, index?_set_false (hnew x hx).2⟩
      · intro x
        rw [hiff x]
        have hset : getVisited
            { st with visited := st.visited.set v.toNat true, q := st.q ++ [v] } x = some true ↔
            getVisited st x = some true ∨ x = v := index?_set_iff hb'
        rw [hset, List.mem_cons]
        tauto
      · intro x hx
        rcases List.mem_cons.1 hx with rfl | hx
        · exact (hiff x).2 (Or.inl hv1)
        · exact hall x hx

/-- Under the loop invariant, every node whose distance is at most the distance of the
front of the queue has been discovered. -/
theorem level_closed {g : List (List Int)} {s : Int} {d : Int → Nat} {st : State}
    {u : Int} {rest : List Int} (hd : ∀ v, Reachable g s v → IsDist g s v (d v))
    (hinv : BfsInv g s d st) (hq : st.q = u :: rest) (n : Nat) :
    ∀ w, Reachable g s w → d w ≤ n → n ≤ d u → w ∈ emitted st ++ st.q := by
  obtain ⟨_, _, _, _, hs, _, hC, hS, _⟩ := hinv
  have hfront : ∀ p ∈ st.q, d u ≤ d p := by
    intro p hp
    rw [hq] at hS hp
    have hcons := (List.pairwise_append.1 hS).2.1
    rcases List.mem_cons.1 hp with rfl | hp
    · exact le_rfl
    · exact (List.pairwise_cons.1 hcons).1 p hp
  induction n with
  | zero =>
    intro w hw hdw _
    have h0 : d w = 0 := by omega
    have hwalk := (hd w hw).1
    rw [h0] at hwalk
    rw [← walk_zero hwalk]
    exact hs
  | succ n ih =>
    intro w hw hdw hn
    by_cases hle : d w ≤ n
    · exact ih w hw hle (by omega)
    · have hdw1 : d w = n + 1 := by omega
      have hwalk := (hd w hw).1
      rw [hdw1] at hwalk
      obtain ⟨p, hp, hpw⟩ := walk_snoc_inv hwalk
      have hpr : Reachable g s p := walk_reachable hp
      have hdp : d p ≤ n := (hd p hpr).2 n hp
      rcases List.mem_append.1 (ih p hpr hdp (by omega)) with he | hpq
      · exact hC p he w hpw
      · have := hfront p hpq
        omega

/-- One execution of the loop body keeps the loop invariant, and does not fail. -/
theorem bfsInv_iter {g : List (List Int)} {s : Int} {d : Int → Nat} {st : State}
    (hg : WellFormed g) (hd : ∀ v, Reachable g s v → IsDist g s v (d v))
    (hinv : BfsInv g s d st) (hne : st.q ≠ []) :
    ∃ st1, iter st = Outcome.ok st1 ∧ BfsInv g s d st1 := by
  obtain ⟨u, rest, hq⟩ := List.exists_cons_of_ne_nil hne
  have hlevel := level_closed hd hinv hq
  obtain ⟨hadj, hlen, hV, hN, hs, hR, hC, hS, hB⟩ := hinv
  have huD : u ∈ emitted st ++ st.q := by
    rw [hq]
    simp
  have huv : index? st.visited u = some true := (hV u).2 huD
  obtain ⟨hu0, hulen⟩ := index?_lt huv
  obtain ⟨vs, hvs⟩ : ∃ vs, index? g u = some vs :=
    index?_isSome hu0 (by rw [← hlen]; exact hulen)
  have hvsg : vs ∈ g := List.getElem?_mem (index?_eq_some_iff.1 hvs).2
  have hvs2 : ∀ v ∈ vs, ∃ b, getVisited (emit { st with q := rest } u) v = some b := by
    intro v hv
    obtain ⟨hv0, hvn⟩ := hg vs hvsg v hv
    exact index?_isSome hv0 (by rw [← hlen] at hvn; exact hvn)
  obtain ⟨st1, new, hrun, hadj1, hcout1, hlen1, hq1, hnd, hnew, hiff, hall⟩ :=
    forNbrs_spec vs (emit { st with q := rest } u) hvs2
  have hidx : index? (emit { st with q := rest } u).adj u = some vs := by
    rw [← hadj] at hvs
    exact hvs
  have hiter : iter st = Outcome.ok st1 := by
    simp only [iter, hq, hidx]
    exact hrun
  have hem1 : emitted st1 = emitted st ++ [u] := by
    rw [emitted_congr hcout1]
    exact emitted_emit _ u
  have hq1' : st1.q = rest ++ new := hq1
  have hD1 : emitted st1 ++ st1.q = (emitted st ++ st.q) ++ new := by
    rw [hem1, hq1', hq]
    simp
  have hur : Reachable g s u := hR u huD
  have hedge : ∀ x ∈ new, Edge g u x := fun x hx => ⟨vs, hvs, (hnew x hx).1⟩
  have hxr : ∀ x ∈ new, Reachable g s x := fun x hx =>
    Relation.ReflTransGen.tail hur (hedge x hx)
  have hxD : ∀ x ∈ new, x ∉ emitted st ++ st.q := by
    intro x hx hm
    have h1 : getVisited st x = some true := (hV x).2 hm
    have h2 : getVisited st x = some false := (hnew x hx).2
    rw [h1] at h2
    cases h2
  have hdx : ∀ x ∈ new, d x = d u + 1 := by
    intro x hx
    have hup : d x ≤ d u + 1 :=
      (hd x (hxr x hx)).2 (d u + 1) (walk_snoc (hd u hur).1 (hedge x hx))
    have hlow : ¬ d x ≤ d u := fun hle =>
      hxD x hx (hlevel (d u) x (hxr x hx) hle le_rfl)
    omega
  have hDu : ∀ x ∈ emitted st ++ st.q, d x ≤ d u + 1 := by
    intro x hx
    exact hB u (by rw [hq]; simp) x hx
  refine ⟨st1, hiter, hadj1.trans hadj, hlen1.trans hlen, ?_, ?_, ?_, ?_, ?_, ?_, ?_⟩
  · intro x
    rw [hD1, hiff x, List.mem_append]
    exact or_congr (hV x) Iff.rfl
  · rw [hD1]
    exact List.Nodup.append hN hnd (fun x hx hxn => hxD x hxn hx)
  · rw [hD1]
    exact List.mem_append_left _ hs
  · rw [hD1]
    intro x hx
    rcases List.mem_append.1 hx with hx | hx
    · exact hR x hx
    · exact hxr x hx
  · rw [hD1, hem1]
    intro a ha w haw
    rcases List.mem_append.1 ha with ha | ha
    · exact List.mem_append_left _ (hC a ha w haw)
    · rw [List.mem_singleton.1 ha] at haw
      obtain ⟨vs1, hvs1, hw⟩ := haw
      rw [hvs] at hvs1
      cases hvs1
      have hwv : getVisited st1 w = some true := hall w hw
      rcases (hiff w).1 hwv with hw1 | hw1
      · exact List.mem_append_left _ ((hV w).1 hw1)
      · exact List.mem_append_right _ hw1
  · rw [hD1]
    refine List.pairwise_append.2 ⟨hS, ?_, ?_⟩
    · refine List.pairwise_of_forall_mem_list ?_
      intro a ha b hb
      rw [hdx a ha, hdx b hb]
    · intro a ha b hb
      rw [hdx b hb]
      exact hDu a ha
  · intro u1 hu1 x hx
    have hu1q : u1 ∈ rest ++ new := by
      rw [← hq1']
      exact List.mem_of_mem_head? hu1
    have hge : d u ≤ d u1 := by
      rcases List.mem_append.1 hu1q with h | h
      · have hcons := (List.pairwise_append.1 (hq ▸ hS)).2.1
        exact (List.pairwise_cons.1 hcons).1 u1 h
      · rw [hdx u1 h]
        omega
    rw [hD1] at hx
    rcases List.mem_append.1 hx with hx | hx
    · have := hDu x hx
      omega
    · rw [hdx x hx]
      omega

/-- The fixed graph is well formed, and its fresh state is the fresh state of `BFS.cpp`. -/
theorem freshOn_adj : WellFormed adj ∧ freshOn adj = fresh := by
  refine ⟨?_, rfl⟩
  unfold WellFormed
  decide

/-- Started in a state that satisfies the loop invariant, with at least `loopMeasure`
units of fuel, the loop ends normally, with an empty queue, and the invariant holds. -/
theorem whileLoop_bfsInv {g : List (List Int)} {s : Int} {d : Int → Nat}
    (hg : WellFormed g) (hd : ∀ v, Reachable g s v → IsDist g s v (d v)) (fuel : Nat)
    (st : State) (hinv : BfsInv g s d st) (hfuel : loopMeasure st ≤ fuel) :
    ∃ st1, whileLoop fuel st = some (Outcome.ok st1) ∧ BfsInv g s d st1 ∧ st1.q = [] := by
  induction fuel generalizing st with
  | zero =>
    have hq : st.q = [] := by
      simp only [loopMeasure] at hfuel
      exact List.length_eq_zero.1 (by omega)
    exact ⟨st, by simp [whileLoop, hq], hinv, hq⟩
  | succ n ih =>
    by_cases hq : st.q = []
    · exact ⟨st, by simp [whileLoop, hq], hinv, hq⟩
    · obtain ⟨st1, hiter, hinv1⟩ := bfsInv_iter hg hd hinv hq
      have hm := iter_measure hiter
      obtain ⟨st2, hrun, hinv2, hq2⟩ := ih st1 hinv1 (by omega)
      refine ⟨st2, ?_, hinv2, hq2⟩
      have hne : st.q.isEmpty = false := by
        cases hst : st.q with
        | nil => exact absurd hst hq
        | cons a l => rfl
      simp only [whileLoop, hne, hiter]
      exact hrun

theorem index?_replicate_false {n : Nat} {x : Int} :
    index? (List.replicate n false) x ≠ some true := by
  intro h
  obtain ⟨_, hx⟩ := index?_eq_some_iff.1 h
  have := List.getElem?_mem hx
  simp at this

/-- C15. The traversal does not depend on the particular graph.  For every adjacency
list `g` all of whose neighbour entries are indices of `g` (cycles, self-loops and
repeated edges allowed), started with one `false` flag per node, an empty queue and a
start node `s` that is an index of `g`, `bfs` returns after at most as many executions of
the loop body as `g` has nodes, with the queue empty and `adj` unchanged.  It has then
emitted every node reachable from `s` exactly once and no other node, and the emitted
nodes stand in non-decreasing order of their shortest-path distance from `s`. -/
theorem bfs_correct_on_any_graph (g : List (List Int)) (hg : WellFormed g) (s : Int)
    (h0 : 0 ≤ s) (hs : s < g.length) (fuel : Nat) (hf : g.length ≤ fuel) :
    ∃ st, bfs fuel (freshOn g) s = some (Outcome.ok st) ∧ st.q = [] ∧ st.adj = g ∧
      (∀ v, Reachable g s v → (emitted st).count v = 1) ∧
      (∀ v ∈ emitted st, Reachable g s v) ∧
      (∀ v ∈ emitted st, ∃ k, IsDist g s v k) ∧
      (∀ a b da db, [a, b].Sublist (emitted st) → IsDist g s a da → IsDist g s b db →
        da ≤ db) := by
  have hdist : ∀ v, ∃ k, Reachable g s v → IsDist g s v k := by
    intro v
    by_cases hv : Reachable g s v
    · obtain ⟨k, hk⟩ := reachable_isDist hv
      exact ⟨k, fun _ => hk⟩
    · exact ⟨0, fun h => absurd h hv⟩
  choose d hd using hdist
  obtain ⟨b, hb⟩ : ∃ b, index? (freshOn g).visited s = some b :=
    index?_isSome h0 (by simpa [freshOn] using hs)
  have hset : setVisited (freshOn g) s
      = Outcome.ok { freshOn g with visited := (freshOn g).visited.set s.toNat true } := by
    simp [setVisited, hb]
  have hb' : index? (freshOn g).visited s = some false := by
    cases b with
    | false => exact hb
    | true => exact absurd hb index?_replicate_false
  have hinit : BfsInv g s d
      (push { freshOn g with visited := (freshOn g).visited.set s.toNat true } s) := by
    have hD : emitted (push { freshOn g with visited := (freshOn g).visited.set s.toNat true } s)
        ++ (push { freshOn g with visited := (freshOn g).visited.set s.toNat true } s).q
        = [s] := rfl
    refine ⟨rfl, by simp [push, freshOn], ?_, ?_, ?_, ?_, ?_, ?_, ?_⟩
    · intro x
      rw [hD, List.mem_singleton]
      have hiff : index? ((freshOn g).visited.set s.toNat true) x = some true ↔
          index? (freshOn g).visited x = some true ∨ x = s := index?_set_iff hb
      have hno : ¬ index? (freshOn g).visited x = some true := index?_replicate_false
      constructor
      · intro hx
        rcases hiff.1 hx with h | h
        · exact absurd h hno
        · exact h
      · intro hx
        exact hiff.2 (Or.inr hx)
    · rw [hD]
      exact List.nodup_singleton s
    · rw [hD]
      exact List.mem_singleton_self s
    · rw [hD]
      intro x hx
      rw [List.mem_singleton.1 hx]
      exact Relation.ReflTransGen.refl
    · intro u hu
      have : emitted (push { freshOn g with visited := (freshOn g).visited.set s.toNat true } s)
          = [] := rfl
      rw [this] at hu
      cases hu
    · rw [hD]
      exact List.pairwise_singleton _ s
    · intro u hu x hx
      rw [hD] at hx
      have hu' : u = s := by
        have : (push { freshOn g with visited := (freshOn g).visited.set s.toNat true } s).q
            = [s] := rfl
        rw [this] at hu
        simpa using hu.symm
      rw [List.mem_singleton.1 hx, hu']
      omega
  have hmeasure :
      loopMeasure (push { freshOn g with visited := (freshOn g).visited.set s.toNat true } s)
        ≤ fuel := by
    have hc := count_false_set hb'
    have hall : (freshOn g).visited.count false = g.length := by
      simp [freshOn]
    have hq1 : (push { freshOn g with visited := (freshOn g).visited.set s.toNat true } s).q.length
        = 1 := rfl
    simp only [loopMeasure, unvisited, hq1]
    have hvis : (push { freshOn g with visited := (freshOn g).visited.set s.toNat true } s).visited
        = (freshOn g).visited.set s.toNat true := rfl
    rw [hvis]
    omega
  obtain ⟨st1, hrun, hinv, hq⟩ := whileLoop_bfsInv hg hd fuel _ hinit hmeasure
  obtain ⟨hadj, _, _, hN, hsD, hR, hC, hS, _⟩ := hinv
  have hD : emitted st1 ++ st1.q = emitted st1 := by
    rw [hq]
    simp
  rw [hD] at hN hsD hR hC hS
  refine ⟨endl st1, ?_, hq, hadj, ?_, ?_, ?_, ?_⟩
  · simp only [bfs, hset]
    rw [hrun]
  · intro v hv
    rw [emitted_endl]
    refine List.count_eq_one_of_mem hN ?_
    induction hv with
    | refl => exact hsD
    | tail _ e ih => exact hC _ ih _ e
  · intro v hv
    rw [emitted_endl] at hv
    exact hR v hv
  · intro v hv
    rw [emitted_endl] at hv
    exact ⟨d v, hd v (hR v hv)⟩
  · intro a b da db hab hda hdb
    rw [emitted_endl] at hab
    have ha : a ∈ emitted st1 := hab.subset (by simp)
    have hb2 : b ∈ emitted st1 := hab.subset (by simp)
    rw [isDist_unique hda (hd a (hR a ha)), isDist_unique hdb (hd b (hR b hb2))]
    have hpair : [a, b].Pairwise (fun x y => d x ≤ d y) := List.Pairwise.sublist hab hS
    have hle : d a ≤ d b := by simpa using hpair
    exact hle

/-- Witness for C15: a graph on three nodes with a cycle, a self-loop and a repeated
edge, traversed from node 0. -/
theorem bfs_correct_on_any_graph_witness :
    ∃ st, bfs 3 (freshOn [[1, 1, 0], [2, 0], [2, 1]]) 0 = some (Outcome.ok st) ∧
      st.q = [] ∧ st.adj = [[1, 1, 0], [2, 0], [2, 1]] ∧
      (∀ v, Reachable [[1, 1, 0], [2, 0], [2, 1]] 0 v → (emitted st).count v = 1) ∧
      (∀ v ∈ emitted st, Reachable [[1, 1, 0], [2, 0], [2, 1]] 0 v) ∧
      (∀ v ∈ emitted st, ∃ k, IsDist [[1, 1, 0], [2, 0], [2, 1]] 0 v k) ∧
      (∀ a b da db, [a, b].Sublist (emitted st) →
        IsDist [[1, 1, 0], [2, 0], [2, 1]] 0 a da →
        IsDist [[1, 1, 0], [2, 0], [2, 1]] 0 b db → da ≤ db) :=
  bfs_correct_on_any_graph [[1, 1, 0], [2, 0], [2, 1]]
    (by unfold WellFormed; decide) 0 (by decide) (by decide) 3 (by decide)

end BFS
